import Mathlib

/-!
Plover: bounded pipeline and file queue.

A shallow embedding of `pkg/pipeline/pipeline.go` and
`pkg/persistence/filequeue.go`.

Conventions of the embedding.

* A Go `error` is `GoError := Option String`; `none` is `nil`.
* A buffered Go channel is a record of its capacity, its queued items
  (oldest first) and its closed flag.
* A `Stage` is a Go closure `func(ctx, item, next) error`.  What the pipeline
  observes of a stage is only how it interacts with `next` and what it finally
  returns, so a stage applied to an item is a `StageRun`: either it returns,
  or it calls `next` with some item and goes on from the value `next` gave back.
* Every API call is one atomic step (the calls of concurrent goroutines are
  interleaved, never overlapped).  A call that would suspend reports `blocked`
  and leaves the state as it is.
* Loops whose termination depends on the data take a `fuel : Nat`; a result
  of `none` means the fuel ran out.
* `make(chan any, n)` panics on a size out of range; `NewPipelineCall` is the
  constructor call with that outcome, `NewPipeline` the pipeline it returns
  otherwise.
* `Pipeline.taken` and `Pipeline.log` are instrumentation: the items the
  worker received from the channel, in order, and each stage invocation it
  made as `(stage index, item received)`.  Nothing reads them.
-/

namespace Plover

/-! ## Channels -/

/-- A buffered channel `make(chan any, cap)`: `buf` holds the queued items, oldest first. -/
structure Chan (α : Type) where
  cap : Nat
  buf : List α
  closed : Bool

/-- Result of a non-blocking send `select { case ch <- x: ... default: ... }`. -/
inductive SendResult (α : Type) where
  | sent (ch : Chan α)
  | full
  | closedPanic

/-- Non-blocking send: a send on a closed channel panics, a send on a channel
with room enqueues at the tail, otherwise the send is not ready. -/
def Chan.trySend {α : Type} (ch : Chan α) (x : α) : SendResult α :=
  if ch.closed then .closedPanic
  else if ch.buf.length < ch.cap then .sent { ch with buf := ch.buf ++ [x] }
  else .full

/-- Whether a receive `<-ch` is ready: an item is queued, or the channel is closed. -/
def Chan.recvReady {α : Type} (ch : Chan α) : Bool :=
  !ch.buf.isEmpty || ch.closed

/-! ## Stages and the chain executor -/

/-- A Go `error`; `none` is `nil`. -/
abbrev GoError := Option String

/-- The behaviour of one stage invocation as seen by the executor. -/
inductive StageRun (α : Type) where
  | ret (err : GoError)
  | callNext (item : α) (k : GoError → StageRun α)

/-- A stage `func(ctx, item, next) error`. -/
abbrev Stage (α : Type) := α → StageRun α

/-- The mutable variables of one `execute` call: the captured `index`, and the
instrumentation log. -/
structure ExecState (α : Type) where
  index : Nat
  log : List (Nat × α)

/-- Runs the body of a stage, answering each of its calls to `next` with `nxt`. -/
def runStage {α : Type} (nxt : α → ExecState α → Option (GoError × ExecState α)) :
    StageRun α → ExecState α → Option (GoError × ExecState α)
  | .ret e, st => some (e, st)
  | .callNext it k, st =>
    match nxt it st with
    | none => none
    | some (r, st') => runStage nxt (k r) st'

/-- The closure `next` of `execute`:
`if index >= len(p.stages) { return nil }; s := p.stages[index]; index++; return s(ctx, it, next)`.
The fuel bounds the nesting depth of `next` inside stages. -/
def next {α : Type} (stages : List (Stage α)) :
    Nat → α → ExecState α → Option (GoError × ExecState α)
  | fuel, it, st =>
    if h : st.index < stages.length then
      match fuel with
      | 0 => none
      | fuel + 1 =>
        runStage (next stages fuel) (stages[st.index] it)
          { index := st.index + 1, log := st.log ++ [(st.index, it)] }
    else some (none, st)

/-- The call `execute(ctx, item)`: `index := 0; _ = next(ctx, item)`.  The
returned error is discarded; the result is the log extended by this chain. -/
def execute {α : Type} (fuel : Nat) (stages : List (Stage α)) (item : α)
    (log : List (Nat × α)) : Option (List (Nat × α)) :=
  match next stages fuel item { index := 0, log := log } with
  | none => none
  | some (_, st) => some st.log

/-! ## The pipeline -/

/-- The Go type `OverflowStrategy int`: any integer can be stored in it. -/
abbrev OverflowStrategy := Int

/-- The constant `OverflowBlock` (`iota`, 0). -/
def OverflowBlock : OverflowStrategy := 0
/-- The constant `OverflowDropOldest` (1). -/
def OverflowDropOldest : OverflowStrategy := 1
/-- The constant `OverflowDropNewest` (2). -/
def OverflowDropNewest : OverflowStrategy := 2

/-- The worker goroutine: `start sync.Once` not yet fired, goroutine alive
(`wg` counter 1), or goroutine returned (`wg` counter back to 0). -/
inductive WorkerState where
  | notStarted
  | running
  | exited
  deriving DecidableEq, Repr

/-- The struct `Pipeline`.  `ctxDone` is the state of the context handed to
`Start` (part of the environment).  `taken` and `log` are instrumentation:
the items the worker has received from the channel, in order, and the stage
invocations it has made. -/
structure Pipeline (α : Type) where
  capacity : Int
  strat : OverflowStrategy
  stages : List (Stage α)
  ch : Chan α
  closing : Bool
  worker : WorkerState
  ctxDone : Bool
  taken : List α
  log : List (Nat × α)

/-- The pipeline that `NewPipeline(capacity, strat)` returns once its
`make(chan any, capacity)` has returned a channel.  The call itself, with the
panic `make` raises on a size out of range, is `NewPipelineCall`. -/
def NewPipeline {α : Type} (capacity : Int) (strat : OverflowStrategy) : Pipeline α :=
  let capacity := if capacity ≤ 0 then 1 else capacity
  { capacity := capacity
    strat := strat
    stages := []
    ch := { cap := capacity.toNat, buf := [], closed := false }
    closing := false
    worker := .notStarted
    ctxDone := false
    taken := []
    log := [] }

/-- The allocation bound `maxAlloc` of the Go runtime on linux/amd64 and
linux/arm64 (48 address bits). -/
def maxAlloc64 : Nat := 281474976710656

/-- The size check of `runtime.makechan` for `make(chan any, size)` on a
64-bit platform, where an element of type `any` takes 16 bytes and
`hchanSize` is 96:
`mem, overflow := math.MulUintptr(elem.Size_, uintptr(size));`
`if overflow || mem > maxAlloc-hchanSize || size < 0 { panic(...) }`.
The result `true` means the check passes. -/
def makechanInRange (maxAlloc : Nat) (size : Int) : Bool :=
  decide (0 ≤ size) && decide (16 * size.toNat < 18446744073709551616) &&
    decide (16 * size.toNat ≤ maxAlloc - 96)

/-- The call `make(chan any, size)`: `none` is the panic
"makechan: size out of range", otherwise an open empty channel of that
capacity. -/
def makechan {α : Type} (maxAlloc : Nat) (size : Int) : Option (Chan α) :=
  if makechanInRange maxAlloc size then some { cap := size.toNat, buf := [], closed := false }
  else none

/-- The call `NewPipeline(capacity, strat)` with its outcome: `none` when
`make(chan any, capacity)` panics, otherwise the pipeline built around the
channel `make` returned. -/
def NewPipelineCall {α : Type} (maxAlloc : Nat) (capacity : Int) (strat : OverflowStrategy) :
    Option (Pipeline α) :=
  let capacity := if capacity ≤ 0 then 1 else capacity
  match makechan maxAlloc capacity with
  | none => none
  | some ch =>
    some
      { capacity := capacity
        strat := strat
        stages := []
        ch := ch
        closing := false
        worker := .notStarted
        ctxDone := false
        taken := []
        log := [] }

/-- The method `Use(s)`: `p.stages = append(p.stages, s)`. -/
def Use {α : Type} (s : Stage α) (p : Pipeline α) : Pipeline α :=
  { p with stages := p.stages ++ [s] }

/-- The method `Start(ctx)`: the first call launches the worker with `ctx`
(whose state at that moment is `ctxDone`); later calls do nothing. -/
def Start {α : Type} (ctxDone : Bool) (p : Pipeline α) : Pipeline α :=
  match p.worker with
  | .notStarted => { p with worker := .running, ctxDone := ctxDone }
  | _ => p

/-- The context handed to `Start` fires. -/
def cancelCtx {α : Type} (p : Pipeline α) : Pipeline α :=
  { p with ctxDone := true }

/-- One iteration of the worker loop
`select { case <-ctx.Done(): return; case it, ok := <-p.ch: if !ok { return }; p.execute(ctx, it) }`.
When both cases are ready Go picks one at random: `pick = true` takes the
`ctx.Done()` case.  With no case ready the worker stays suspended. -/
def workerStep {α : Type} (fuel : Nat) (pick : Bool) (p : Pipeline α) : Option (Pipeline α) :=
  match p.worker with
  | .running =>
    if p.ctxDone && (pick || !p.ch.recvReady) then some { p with worker := .exited }
    else
      match p.ch.buf with
      | it :: rest =>
        match execute fuel p.stages it p.log with
        | none => none
        | some log' =>
          some { p with ch := { p.ch with buf := rest }, taken := p.taken ++ [it], log := log' }
      | [] => if p.ch.closed then some { p with worker := .exited } else some p
  | _ => some p

/-- Runs `n` iterations of the worker loop; `pick i` resolves the random
choice when `n - i` iterations have been made. -/
def workerLoop {α : Type} (fuel : Nat) (pick : Nat → Bool) :
    Nat → Pipeline α → Option (Pipeline α)
  | 0, p => some p
  | n + 1, p =>
    match workerStep fuel (pick n) p with
    | none => none
    | some p' => workerLoop fuel pick n p'

/-- The method `Stop()`: returns at once when already closing; otherwise sets
`closing`, closes the channel and waits on `wg`.  The wait lets the worker run
until it has returned; the channel being closed, that takes at most one
iteration per buffered item plus one. -/
def Stop {α : Type} (fuel : Nat) (pick : Nat → Bool) (p : Pipeline α) : Option (Pipeline α) :=
  if p.closing then some p
  else
    let p1 := { p with closing := true, ch := { p.ch with closed := true } }
    workerLoop fuel pick (p1.ch.buf.length + 1) p1

/-- What a `Publish` call does: return `nil`, return an error built with
`errors.New`, return `ctx.Err()`, stay suspended, or panic on a closed channel. -/
inductive Outcome where
  | nil
  | error (msg : String)
  | ctxErr
  | blocked
  | panicked
  deriving DecidableEq, Repr

/-- The loop of the `OverflowDropOldest` case:
`for { select { case p.ch <- item: return nil; default: select { case <-p.ch: default: } } }`. -/
def dropOldestLoop {α : Type} : Nat → Chan α → α → Option (Outcome × Chan α)
  | 0, _, _ => none
  | fuel + 1, ch, item =>
    match ch.trySend item with
    | .sent ch' => some (.nil, ch')
    | .closedPanic => some (.panicked, ch)
    | .full => dropOldestLoop fuel { ch with buf := ch.buf.tail } item

/-- The method `Publish(ctx, item)`.  `ctxDone` is the state of the caller's
context; `pick = true` takes the `ctx.Done()` case when both cases of the
`OverflowBlock` select are ready. -/
def Publish {α : Type} (fuel : Nat) (ctxDone pick : Bool) (item : α) (p : Pipeline α) :
    Option (Outcome × Pipeline α) :=
  if p.closing then some (.error "pipeline is closed", p)
  else if p.strat = OverflowBlock then
    match p.ch.trySend item with
    | .sent ch' => if ctxDone && pick then some (.ctxErr, p) else some (.nil, { p with ch := ch' })
    | .closedPanic => if ctxDone && pick then some (.ctxErr, p) else some (.panicked, p)
    | .full => if ctxDone then some (.ctxErr, p) else some (.blocked, p)
  else if p.strat = OverflowDropOldest then
    match dropOldestLoop fuel p.ch item with
    | none => none
    | some (r, ch') => some (r, { p with ch := ch' })
  else if p.strat = OverflowDropNewest then
    match p.ch.trySend item with
    | .sent ch' => some (.nil, { p with ch := ch' })
    | .closedPanic => some (.panicked, p)
    | .full => some (.error "dropped newest item due to overflow", p)
  else some (.error "unknown overflow strategy", p)

/-- What a `TryPublish` call does: return a boolean, or panic on a closed channel. -/
inductive TryOutcome where
  | ret (accepted : Bool)
  | panicked
  deriving DecidableEq, Repr

/-- The method `TryPublish(ctx, item)`. -/
def TryPublish {α : Type} (item : α) (p : Pipeline α) : TryOutcome × Pipeline α :=
  if p.closing then (.ret false, p)
  else
    match p.ch.trySend item with
    | .sent ch' => (.ret true, { p with ch := ch' })
    | .closedPanic => (.panicked, p)
    | .full => (.ret false, p)

/-! ## Sequences of calls -/

/-- One atomic step taken on a pipeline by some goroutine. -/
inductive Op (α : Type) where
  | use (s : Stage α)
  | start (ctxDone : Bool)
  | cancel
  | publish (ctxDone pick : Bool) (item : α)
  | tryPublish (item : α)
  | worker (pick : Bool)
  | stop (pick : Nat → Bool)

/-- The effect of one step on the pipeline; the value returned to the caller is dropped. -/
def step {α : Type} (fuel : Nat) (p : Pipeline α) : Op α → Option (Pipeline α)
  | .use s => some (Use s p)
  | .start c => some (Start c p)
  | .cancel => some (cancelCtx p)
  | .publish c k item => (Publish fuel c k item p).map Prod.snd
  | .tryPublish item => some (TryPublish item p).2
  | .worker k => workerStep fuel k p
  | .stop k => Stop fuel k p

/-- Runs a sequence of steps, first to last. -/
def run {α : Type} (fuel : Nat) : List (Op α) → Pipeline α → Option (Pipeline α)
  | [], p => some p
  | op :: ops, p =>
    match step fuel p op with
    | none => none
    | some p' => run fuel ops p'

/-- A state some sequence of steps leads to from a freshly constructed pipeline. -/
def Reachable {α : Type} (p : Pipeline α) : Prop :=
  ∃ (capacity : Int) (strat : OverflowStrategy) (fuel : Nat) (ops : List (Op α)),
    run fuel ops (NewPipeline capacity strat) = some p

/-- Calls `Publish` once per item, first to last, with no other step in
between; returns the outcomes in call order and the final state. -/
def publishAll {α : Type} (fuel : Nat) (ctxDone pick : Bool) :
    List α → Pipeline α → Option (List Outcome × Pipeline α)
  | [], p => some ([], p)
  | item :: items, p =>
    match Publish fuel ctxDone pick item p with
    | none => none
    | some (r, p') =>
      match publishAll fuel ctxDone pick items p' with
      | none => none
      | some (rs, p'') => some (r :: rs, p'')

/-! ## Derived notions used to state the properties -/

/-- What every state reached from `NewPipeline` satisfies: the channel is
closed exactly when `closing` is set, its capacity is the stored `capacity`,
which is positive, and it holds at most that many items. -/
def Inv {α : Type} (p : Pipeline α) : Prop :=
  p.ch.closed = p.closing ∧ p.ch.cap = p.capacity.toNat ∧ 1 ≤ p.capacity ∧
    p.ch.buf.length ≤ p.ch.cap

/-- Two states of the same pipeline: capacity and strategy never change. -/
def SameConfig {α : Type} (p q : Pipeline α) : Prop :=
  q.capacity = p.capacity ∧ q.strat = p.strat ∧ q.ch.cap = p.ch.cap

/-- The stage invocations of the chain of one item, run on its own from
`index = 0` with an empty log. -/
def chainTrace {α : Type} (stages : List (Stage α)) (item : α) : List (Nat × α) :=
  match execute stages.length stages item [] with
  | some l => l
  | none => []

/-- Registers the stages with `Use`, first to last. -/
def useAll {α : Type} : List (Stage α) → Pipeline α → Pipeline α
  | [], p => p
  | s :: ss, p => useAll ss (Use s p)

/-- A stage invocation that calls its continuation at most once: it returns
without calling `next`, or calls it once and then returns. -/
def StageRun.AtMostOnce {α : Type} : StageRun α → Prop
  | .ret _ => True
  | .callNext _ k => ∀ r, ∃ e, k r = .ret e

/-- The run the specification describes for stages `s_i, s_(i+1), ...` and an
item: stage `i` receives the item; if it does not invoke its continuation the
run ends there, otherwise the next stage receives the item it passed on. -/
def chainSpec {α : Type} : List (Stage α) → Nat → α → List (Nat × α)
  | [], _, _ => []
  | s :: rest, i, it =>
    (i, it) ::
      match s it with
      | .ret _ => []
      | .callNext it' _ => chainSpec rest (i + 1) it'

/-- The error the specification's run hands back: past the last stage the
continuation yields `nil`; a stage that calls the continuation once returns
what it makes of the continuation's answer. -/
def chainResult {α : Type} : List (Stage α) → α → GoError
  | [], _ => none
  | s :: rest, it =>
    match s it with
    | .ret e => e
    | .callNext it' k =>
      match k (chainResult rest it') with
      | .ret e => e
      | .callNext _ _ => none

/-! ## The stages of `cmd/plover/main.go`, and sample states -/

/-- The first stage of `main.go`: `return next(ctx, item)` (printing and
sleeping left out). -/
def passStage {α : Type} : Stage α :=
  fun item => .callNext item (fun r => .ret r)

/-- The second stage of `main.go`: `return nil` without calling `next`. -/
def consumerStage {α : Type} : Stage α :=
  fun _ => .ret none

/-- A sample stage: fails on an odd item without calling `next`, passes an
even item on, increased by 100. -/
def oddFails : Stage Nat :=
  fun item => if item % 2 = 1 then .ret (some "odd") else .callNext (item + 100) (fun r => .ret r)

/-- A sample state: capacity 2, blocking strategy, stages `oddFails` then
`consumerStage`, worker started, items 1 and 2 buffered. -/
def sampleRunning : Pipeline Nat :=
  { capacity := 2
    strat := OverflowBlock
    stages := [oddFails, consumerStage]
    ch := { cap := 2, buf := [1, 2], closed := false }
    closing := false
    worker := .running
    ctxDone := false
    taken := []
    log := [] }

/-- A sample state: capacity 2, blocking strategy, the stage `passStage`,
worker started, items 1 and 2 buffered. -/
def sampleFull : Pipeline Nat :=
  { capacity := 2
    strat := OverflowBlock
    stages := [passStage]
    ch := { cap := 2, buf := [1, 2], closed := false }
    closing := false
    worker := .running
    ctxDone := false
    taken := []
    log := [] }

/-! ## The file queue

The file is a list of bytes.  `os.File` has one offset, used by `Read` and by
`Write` alike; `readR` is a `bufio.Reader` of the default size over that file.
`encoding/json` is a parameter: `marshal` and `unmarshal`.  Failures of the
operating system (open, write, sync) are not modelled. -/

/-- The struct `FileQueue`: the bytes of the file, the offset of the open
file `f`, and the bytes `readR` has read from `f` and not yet handed out.
The field `writeW` is never written to and is left out. -/
structure FileQueue where
  content : List Nat
  offset : Nat
  rbuf : List Nat
  deriving DecidableEq, Repr

/-- The size of the buffer of `bufio.NewReader`. -/
def defaultBufSize : Nat := 4096

/-- The constructor `NewFileQueue(path)` on a file holding `content` (empty when
the file is created): `f.Seek(0, 2)` moves the offset to the end. -/
def NewFileQueue (content : List Nat) : FileQueue :=
  { content := content, offset := content.length, rbuf := [] }

/-- The call `f.Write(data)`: the bytes go to the current offset, over what is
there, and the offset advances. -/
def fileWrite (q : FileQueue) (data : List Nat) : FileQueue :=
  { q with
    content := q.content.take q.offset ++ List.replicate (q.offset - q.content.length) 0 ++
      data ++ q.content.drop (q.offset + data.length)
    offset := q.offset + data.length }

/-- The method `Enqueue(item)`: `json.Marshal`, then one `Write` of the
encoding followed by a newline. -/
def Enqueue {ι : Type} (marshal : ι → Except String (List Nat)) (item : ι) (q : FileQueue) :
    GoError × FileQueue :=
  match marshal item with
  | .error e => (some e, q)
  | .ok b => (none, fileWrite q (b ++ [10]))

/-- The call `readR.ReadBytes(delim)`: hand out the buffered bytes through the
first `delim`; failing that, set a full buffer aside and go on, or read more
of the file at its offset into the buffer; when the file yields nothing
(`io.EOF`), hand out what has been gathered together with the error.  The
boolean is `err != nil`. -/
def readBytes (bufSize delim : Nat) :
    Nat → FileQueue → List Nat → Option ((List Nat × Bool) × FileQueue)
  | 0, _, _ => none
  | fuel + 1, q, acc =>
    if q.rbuf.indexOf delim < q.rbuf.length then
      some ((acc ++ q.rbuf.take (q.rbuf.indexOf delim + 1), false),
        { q with rbuf := q.rbuf.drop (q.rbuf.indexOf delim + 1) })
    else if bufSize ≤ q.rbuf.length then
      readBytes bufSize delim fuel { q with rbuf := [] } (acc ++ q.rbuf)
    else
      let n := min (bufSize - q.rbuf.length) (q.content.length - q.offset)
      if n = 0 then some ((acc ++ q.rbuf, true), { q with rbuf := [] })
      else
        readBytes bufSize delim fuel
          { q with rbuf := q.rbuf ++ (q.content.drop q.offset).take n, offset := q.offset + n }
          acc

/-- What `Dequeue` returns: a decoded value, or an error. -/
inductive DequeueResult (υ : Type) where
  | value (v : υ)
  | error (msg : String)
  deriving DecidableEq, Repr

/-- The method `Dequeue()`: `ReadBytes` of a line; any error gives
`errors.New("empty")`; otherwise `json.Unmarshal` of the line. -/
def Dequeue {υ : Type} (unmarshal : List Nat → Except String υ) (fuel : Nat) (q : FileQueue) :
    Option (DequeueResult υ × FileQueue) :=
  match readBytes defaultBufSize 10 fuel q [] with
  | none => none
  | some ((line, err), q') =>
    if err then some (.error "empty", q')
    else
      match unmarshal line with
      | .error e => some (.error e, q')
      | .ok v => some (.value v, q')

/-- A call on the queue. -/
inductive QueueOp (ι : Type) where
  | enqueue (item : ι)
  | dequeue

/-- Runs the calls first to last and gathers what the `Dequeue` calls returned. -/
def runQueue {ι υ : Type} (marshal : ι → Except String (List Nat))
    (unmarshal : List Nat → Except String υ) (fuel : Nat) :
    List (QueueOp ι) → FileQueue → Option (List (DequeueResult υ) × FileQueue)
  | [], q => some ([], q)
  | .enqueue item :: ops, q => runQueue marshal unmarshal fuel ops (Enqueue marshal item q).2
  | .dequeue :: ops, q =>
    match Dequeue unmarshal fuel q with
    | none => none
    | some (r, q') =>
      match runQueue marshal unmarshal fuel ops q' with
      | none => none
      | some (rs, q'') => some (r :: rs, q'')

/-- The fragment of `json.Marshal` on Go strings made of ASCII letters and
digits only: the bytes between two double quotes. -/
def marshalPlain (s : List Nat) : Except String (List Nat) :=
  if s.all (fun b => (48 ≤ b && b ≤ 57) || (65 ≤ b && b ≤ 90) || (97 ≤ b && b ≤ 122)) then
    .ok (34 :: s ++ [34])
  else .error "json: outside the modelled fragment"

/-- The matching fragment of `json.Unmarshal`: a quoted run of ASCII letters
and digits, the trailing newline ignored. -/
def unmarshalPlain (line : List Nat) : Except String (List Nat) :=
  let body := if line.getLast? = some 10 then line.dropLast else line
  match body with
  | 34 :: rest =>
    if rest.getLast? = some 34 ∧
        rest.dropLast.all
          (fun b => (48 ≤ b && b ≤ 57) || (65 ≤ b && b ≤ 90) || (97 ≤ b && b ≤ 122)) then
      .ok rest.dropLast
    else .error "json: outside the modelled fragment"
  | _ => .error "json: outside the modelled fragment"

/-- The offset of the open file stands at the end of the file and the reader
holds no byte. -/
def FileQueue.AtEnd (q : FileQueue) : Prop :=
  q.offset = q.content.length ∧ q.rbuf = []

/-! # Properties -/

/-! ## The structural invariant of reachable states -/

theorem SameConfig.refl {α : Type} (p : Pipeline α) : SameConfig p p :=
  ⟨rfl, rfl, rfl⟩

theorem SameConfig.trans {α : Type} {p q r : Pipeline α}
    (h1 : SameConfig p q) (h2 : SameConfig q r) : SameConfig p r :=
  ⟨h2.1.trans h1.1, h2.2.1.trans h1.2.1, h2.2.2.trans h1.2.2⟩

theorem inv_NewPipeline {α : Type} (c : Int) (strat : OverflowStrategy) :
    Inv (NewPipeline c strat : Pipeline α) := by
  unfold Inv NewPipeline
  by_cases hc : c ≤ 0
  · simp [hc]
  · simp [hc]; omega

theorem trySend_sent {α : Type} {ch ch' : Chan α} {x : α} (h : ch.trySend x = .sent ch') :
    ch.closed = false ∧ ch.buf.length < ch.cap ∧ ch' = { ch with buf := ch.buf ++ [x] } := by
  unfold Chan.trySend at h
  split at h
  · cases h
  · split at h
    · rename_i h1 h2
      injection h with h
      exact ⟨by simpa using h1, h2, h.symm⟩
    · cases h

theorem trySend_full {α : Type} {ch : Chan α} {x : α} (h : ch.trySend x = .full) :
    ch.closed = false ∧ ch.cap ≤ ch.buf.length := by
  unfold Chan.trySend at h
  split at h
  · cases h
  · split at h
    · cases h
    · rename_i h1 h2
      exact ⟨by simpa using h1, by omega⟩

theorem trySend_of_room {α : Type} {ch : Chan α} (x : α) (h1 : ch.closed = false)
    (h2 : ch.buf.length < ch.cap) :
    ch.trySend x = .sent { ch with buf := ch.buf ++ [x] } := by
  simp [Chan.trySend, h1, h2]

theorem trySend_of_full {α : Type} {ch : Chan α} (x : α) (h1 : ch.closed = false)
    (h2 : ch.cap ≤ ch.buf.length) : ch.trySend x = .full := by
  have : ¬ ch.buf.length < ch.cap := by omega
  simp [Chan.trySend, h1, this]

theorem dropOldestLoop_spec {α : Type} : ∀ (fuel : Nat) (ch : Chan α) (item : α) (r : Outcome)
    (ch' : Chan α), dropOldestLoop fuel ch item = some (r, ch') →
    ch'.cap = ch.cap ∧ ch'.closed = ch.closed ∧
      (ch.buf.length ≤ ch.cap → ch'.buf.length ≤ ch.cap) := by
  intro fuel
  induction fuel with
  | zero => intro ch item r ch' h; simp [dropOldestLoop] at h
  | succ n ih =>
    intro ch item r ch' h
    rw [dropOldestLoop] at h
    split at h
    · rename_i c hs
      obtain ⟨_, h2, h3⟩ := trySend_sent hs
      simp only [Option.some.injEq, Prod.mk.injEq] at h
      obtain ⟨_, rfl⟩ := h
      subst h3
      refine ⟨rfl, rfl, fun _ => ?_⟩
      simp; omega
    · simp only [Option.some.injEq, Prod.mk.injEq] at h
      obtain ⟨_, rfl⟩ := h
      exact ⟨rfl, rfl, id⟩
    · obtain ⟨h1, h2, h3⟩ := ih _ _ _ _ h
      refine ⟨h1, h2, fun hle => ?_⟩
      apply h3
      simp; omega

theorem Publish_inv {α : Type} {fuel : Nat} {c k : Bool} {item : α} {p q : Pipeline α}
    {r : Outcome} (h : Publish fuel c k item p = some (r, q)) (hp : Inv p) :
    Inv q ∧ SameConfig p q ∧ q.closing = p.closing := by
  obtain ⟨h1, h2, h3, h4⟩ := hp
  unfold Publish at h
  split at h
  · simp only [Option.some.injEq, Prod.mk.injEq] at h
    obtain ⟨_, rfl⟩ := h
    exact ⟨⟨h1, h2, h3, h4⟩, SameConfig.refl _, rfl⟩
  · split at h
    · split at h
      · rename_i ch' hs
        obtain ⟨_, hlt, rfl⟩ := trySend_sent hs
        split at h <;> simp only [Option.some.injEq, Prod.mk.injEq] at h <;> obtain ⟨_, rfl⟩ := h
        · exact ⟨⟨h1, h2, h3, h4⟩, SameConfig.refl _, rfl⟩
        · refine ⟨⟨h1, h2, h3, ?_⟩, ⟨rfl, rfl, rfl⟩, rfl⟩
          simp; omega
      · split at h <;> simp only [Option.some.injEq, Prod.mk.injEq] at h <;> obtain ⟨_, rfl⟩ := h <;>
          exact ⟨⟨h1, h2, h3, h4⟩, SameConfig.refl _, rfl⟩
      · split at h <;> simp only [Option.some.injEq, Prod.mk.injEq] at h <;> obtain ⟨_, rfl⟩ := h <;>
          exact ⟨⟨h1, h2, h3, h4⟩, SameConfig.refl _, rfl⟩
    · split at h
      · split at h
        · cases h
        · rename_i r' ch' hd
          simp only [Option.some.injEq, Prod.mk.injEq] at h
          obtain ⟨_, rfl⟩ := h
          obtain ⟨e1, e2, e3⟩ := dropOldestLoop_spec _ _ _ _ _ hd
          refine ⟨⟨?_, ?_, h3, ?_⟩, ⟨rfl, rfl, e1⟩, rfl⟩
          · simpa [e2] using h1
          · simpa [e1] using h2
          · simpa [e1] using e3 h4
      · split at h
        · split at h
          · rename_i ch' hs
            obtain ⟨_, hlt, rfl⟩ := trySend_sent hs
            simp only [Option.some.injEq, Prod.mk.injEq] at h
            obtain ⟨_, rfl⟩ := h
            refine ⟨⟨h1, h2, h3, ?_⟩, ⟨rfl, rfl, rfl⟩, rfl⟩
            simp; omega
          · simp only [Option.some.injEq, Prod.mk.injEq] at h
            obtain ⟨_, rfl⟩ := h
            exact ⟨⟨h1, h2, h3, h4⟩, SameConfig.refl _, rfl⟩
          · simp only [Option.some.injEq, Prod.mk.injEq] at h
            obtain ⟨_, rfl⟩ := h
            exact ⟨⟨h1, h2, h3, h4⟩, SameConfig.refl _, rfl⟩
        · simp only [Option.some.injEq, Prod.mk.injEq] at h
          obtain ⟨_, rfl⟩ := h
          exact ⟨⟨h1, h2, h3, h4⟩, SameConfig.refl _, rfl⟩

theorem TryPublish_inv {α : Type} (item : α) {p : Pipeline α} (hp : Inv p) :
    Inv (TryPublish item p).2 ∧ SameConfig p (TryPublish item p).2 ∧
      (TryPublish item p).2.closing = p.closing := by
  obtain ⟨h1, h2, h3, h4⟩ := hp
  unfold TryPublish
  split
  · exact ⟨⟨h1, h2, h3, h4⟩, SameConfig.refl _, rfl⟩
  · split
    · rename_i ch' hs
      obtain ⟨_, hlt, rfl⟩ := trySend_sent hs
      refine ⟨⟨h1, h2, h3, ?_⟩, ⟨rfl, rfl, rfl⟩, rfl⟩
      simp; omega
    · exact ⟨⟨h1, h2, h3, h4⟩, SameConfig.refl _, rfl⟩
    · exact ⟨⟨h1, h2, h3, h4⟩, SameConfig.refl _, rfl⟩

theorem workerStep_inv {α : Type} {fuel : Nat} {k : Bool} {p q : Pipeline α}
    (h : workerStep fuel k p = some q) (hp : Inv p) :
    Inv q ∧ SameConfig p q ∧ q.closing = p.closing := by
  obtain ⟨h1, h2, h3, h4⟩ := hp
  unfold workerStep at h
  split at h
  · split at h
    · simp only [Option.some.injEq] at h
      subst h
      exact ⟨⟨h1, h2, h3, h4⟩, SameConfig.refl _, rfl⟩
    · split at h
      · rename_i it rest hb
        split at h
        · cases h
        · simp only [Option.some.injEq] at h
          subst h
          refine ⟨⟨h1, h2, h3, ?_⟩, ⟨rfl, rfl, rfl⟩, rfl⟩
          rw [hb] at h4
          simp at h4 ⊢
          omega
      · split at h <;> simp only [Option.some.injEq] at h <;> subst h <;>
          exact ⟨⟨h1, h2, h3, h4⟩, SameConfig.refl _, rfl⟩
  · simp only [Option.some.injEq] at h
    subst h
    exact ⟨⟨h1, h2, h3, h4⟩, SameConfig.refl _, rfl⟩

theorem workerLoop_inv {α : Type} {fuel : Nat} {pick : Nat → Bool} :
    ∀ (n : Nat) {p q : Pipeline α}, workerLoop fuel pick n p = some q → Inv p →
      Inv q ∧ SameConfig p q ∧ q.closing = p.closing := by
  intro n
  induction n with
  | zero =>
    intro p q h hp
    simp only [workerLoop, Option.some.injEq] at h
    subst h
    exact ⟨hp, SameConfig.refl _, rfl⟩
  | succ n ih =>
    intro p q h hp
    rw [workerLoop] at h
    split at h
    · cases h
    · rename_i p' hs
      obtain ⟨a1, a2, a3⟩ := workerStep_inv hs hp
      obtain ⟨b1, b2, b3⟩ := ih h a1
      exact ⟨b1, a2.trans b2, b3.trans a3⟩

theorem Stop_inv {α : Type} {fuel : Nat} {pick : Nat → Bool} {p q : Pipeline α}
    (h : Stop fuel pick p = some q) (hp : Inv p) :
    Inv q ∧ SameConfig p q ∧ q.closing = true := by
  unfold Stop at h
  split at h
  · rename_i hc
    simp only [Option.some.injEq] at h
    subst h
    exact ⟨hp, SameConfig.refl _, hc⟩
  · obtain ⟨h1, h2, h3, h4⟩ := hp
    have hp1 : Inv { p with closing := true, ch := { p.ch with closed := true } } :=
      ⟨rfl, h2, h3, h4⟩
    obtain ⟨a1, a2, a3⟩ := workerLoop_inv _ h hp1
    exact ⟨a1, ⟨a2.1, a2.2.1, a2.2.2⟩, a3⟩

theorem step_inv {α : Type} {fuel : Nat} {op : Op α} {p q : Pipeline α}
    (h : step fuel p op = some q) (hp : Inv p) :
    Inv q ∧ SameConfig p q ∧ (p.closing = true → q.closing = true) := by
  cases op with
  | use s =>
    simp only [step, Option.some.injEq] at h
    subst h
    exact ⟨hp, ⟨rfl, rfl, rfl⟩, id⟩
  | start c =>
    simp only [step, Option.some.injEq] at h
    subst h
    unfold Start
    split
    · exact ⟨hp, ⟨rfl, rfl, rfl⟩, id⟩
    · exact ⟨hp, SameConfig.refl _, id⟩
  | cancel =>
    simp only [step, Option.some.injEq] at h
    subst h
    exact ⟨hp, ⟨rfl, rfl, rfl⟩, id⟩
  | publish c k item =>
    simp only [step, Option.map_eq_some'] at h
    obtain ⟨⟨r, q'⟩, hq, rfl⟩ := h
    obtain ⟨a1, a2, a3⟩ := Publish_inv hq hp
    exact ⟨a1, a2, fun hc => a3.trans hc⟩
  | tryPublish item =>
    simp only [step, Option.some.injEq] at h
    subst h
    obtain ⟨a1, a2, a3⟩ := TryPublish_inv item hp
    exact ⟨a1, a2, fun hc => a3.trans hc⟩
  | worker k =>
    obtain ⟨a1, a2, a3⟩ := workerStep_inv h hp
    exact ⟨a1, a2, fun hc => a3.trans hc⟩
  | stop k =>
    obtain ⟨a1, a2, a3⟩ := Stop_inv h hp
    exact ⟨a1, a2, fun _ => a3⟩

theorem run_inv {α : Type} {fuel : Nat} : ∀ (ops : List (Op α)) {p q : Pipeline α},
    run fuel ops p = some q → Inv p →
      Inv q ∧ SameConfig p q ∧ (p.closing = true → q.closing = true) := by
  intro ops
  induction ops with
  | nil =>
    intro p q h hp
    simp only [run, Option.some.injEq] at h
    subst h
    exact ⟨hp, SameConfig.refl _, id⟩
  | cons op ops ih =>
    intro p q h hp
    rw [run] at h
    split at h
    · cases h
    · rename_i p' hs
      obtain ⟨a1, a2, a3⟩ := step_inv hs hp
      obtain ⟨b1, b2, b3⟩ := ih h a1
      exact ⟨b1, a2.trans b2, fun hc => b3 (a3 hc)⟩

theorem reachable_inv {α : Type} {p : Pipeline α} (h : Reachable p) : Inv p := by
  obtain ⟨c, strat, fuel, ops, hr⟩ := h
  exact (run_inv ops hr (inv_NewPipeline c strat)).1

/-! ## The chain executor returns, and its log only grows -/

theorem runStage_rel {α : Type} {nxt1 nxt2 : α → ExecState α → Option (GoError × ExecState α)}
    {b : Nat}
    (hn : ∀ (it : α) (i : Nat) (L1 L2 : List (Nat × α)), b ≤ i →
      ∃ r i' t, nxt1 it ⟨i, L1⟩ = some (r, ⟨i', L1 ++ t⟩) ∧
        nxt2 it ⟨i, L2⟩ = some (r, ⟨i', L2 ++ t⟩) ∧ i ≤ i') :
    ∀ (sr : StageRun α) (i : Nat) (L1 L2 : List (Nat × α)), b ≤ i →
      ∃ r i' t, runStage nxt1 sr ⟨i, L1⟩ = some (r, ⟨i', L1 ++ t⟩) ∧
        runStage nxt2 sr ⟨i, L2⟩ = some (r, ⟨i', L2 ++ t⟩) ∧ i ≤ i' := by
  intro sr
  induction sr with
  | ret e =>
    intro i L1 L2 _
    exact ⟨e, i, [], by simp [runStage], by simp [runStage], le_refl _⟩
  | callNext it k ih =>
    intro i L1 L2 hb
    obtain ⟨r, i', t, e1, e2, hle⟩ := hn it i L1 L2 hb
    obtain ⟨r', i'', t', f1, f2, hle'⟩ := ih r i' (L1 ++ t) (L2 ++ t) (le_trans hb hle)
    refine ⟨r', i'', t ++ t', ?_, ?_, le_trans hle hle'⟩
    · rw [runStage, e1]
      simpa [List.append_assoc] using f1
    · rw [runStage, e2]
      simpa [List.append_assoc] using f2

theorem next_rel {α : Type} (stages : List (Stage α)) :
    ∀ (fuel1 fuel2 : Nat) (it : α) (i : Nat) (L1 L2 : List (Nat × α)),
      stages.length ≤ i + fuel1 → stages.length ≤ i + fuel2 →
      ∃ r i' t, next stages fuel1 it ⟨i, L1⟩ = some (r, ⟨i', L1 ++ t⟩) ∧
        next stages fuel2 it ⟨i, L2⟩ = some (r, ⟨i', L2 ++ t⟩) ∧ i ≤ i' := by
  intro fuel1
  induction fuel1 with
  | zero =>
    intro fuel2 it i L1 L2 h1 _
    have hn : ¬ i < stages.length := by omega
    refine ⟨none, i, [], ?_, ?_, le_refl _⟩
    · rw [next]; simp [hn]
    · rw [next]; simp [hn]
  | succ n1 ih =>
    intro fuel2 it i L1 L2 h1 h2
    by_cases hlt : i < stages.length
    · cases fuel2 with
      | zero => omega
      | succ n2 =>
        have hn : ∀ (it' : α) (j : Nat) (M1 M2 : List (Nat × α)), i + 1 ≤ j →
            ∃ r i' t, next stages n1 it' ⟨j, M1⟩ = some (r, ⟨i', M1 ++ t⟩) ∧
              next stages n2 it' ⟨j, M2⟩ = some (r, ⟨i', M2 ++ t⟩) ∧ j ≤ i' :=
          fun it' j M1 M2 hj => ih n2 it' j M1 M2 (by omega) (by omega)
        obtain ⟨r, i', t, e1, e2, hle⟩ :=
          runStage_rel hn (stages[i] it) (i + 1) (L1 ++ [(i, it)]) (L2 ++ [(i, it)]) (le_refl _)
        refine ⟨r, i', (i, it) :: t, ?_, ?_, by omega⟩
        · rw [next]
          simp only [hlt, dite_true]
          simpa [List.append_assoc] using e1
        · rw [next]
          simp only [hlt, dite_true]
          simpa [List.append_assoc] using e2
    · refine ⟨none, i, [], ?_, ?_, le_refl _⟩
      · rw [next]; simp [hlt]
      · rw [next]; simp [hlt]

theorem execute_eq {α : Type} (stages : List (Stage α)) (fuel : Nat)
    (hf : stages.length ≤ fuel) (item : α) (log : List (Nat × α)) :
    execute fuel stages item log = some (log ++ chainTrace stages item) := by
  obtain ⟨r, i', t, e1, e2, _⟩ :=
    next_rel stages fuel stages.length item 0 log [] (by omega) (by omega)
  simp only [execute, chainTrace, e1, e2, List.nil_append]

/-! ## Flags that only ever get set -/

theorem Publish_closing {α : Type} {fuel : Nat} {c k : Bool} {item : α} {p q : Pipeline α}
    {r : Outcome} (h : Publish fuel c k item p = some (r, q)) : q.closing = p.closing := by
  unfold Publish at h
  repeat (first | split at h | cases h | rfl)

theorem workerStep_closing {α : Type} {fuel : Nat} {k : Bool} {p q : Pipeline α}
    (h : workerStep fuel k p = some q) : q.closing = p.closing := by
  unfold workerStep at h
  repeat (first | split at h | cases h | rfl)

theorem workerLoop_closing {α : Type} {fuel : Nat} {pick : Nat → Bool} :
    ∀ (n : Nat) {p q : Pipeline α}, workerLoop fuel pick n p = some q →
      q.closing = p.closing := by
  intro n
  induction n with
  | zero => intro p q h; cases h; rfl
  | succ n ih =>
    intro p q h
    rw [workerLoop] at h
    split at h
    · cases h
    · rename_i p' hs
      exact (ih h).trans (workerStep_closing hs)

theorem Stop_closing {α : Type} {fuel : Nat} {pick : Nat → Bool} {p q : Pipeline α}
    (h : Stop fuel pick p = some q) : q.closing = true := by
  unfold Stop at h
  split at h
  · rename_i hc
    cases h
    exact hc
  · exact workerLoop_closing _ h

theorem TryPublish_closing {α : Type} (item : α) (p : Pipeline α) :
    (TryPublish item p).2.closing = p.closing := by
  unfold TryPublish
  repeat (first | split | rfl)

theorem step_closing {α : Type} {fuel : Nat} {op : Op α} {p q : Pipeline α}
    (h : step fuel p op = some q) (hc : p.closing = true) : q.closing = true := by
  cases op with
  | use s => cases h; exact hc
  | start c =>
    cases h
    unfold Start
    split <;> exact hc
  | cancel => cases h; exact hc
  | publish c k item =>
    simp only [step, Option.map_eq_some'] at h
    obtain ⟨⟨r, q'⟩, hq, rfl⟩ := h
    exact (Publish_closing hq).trans hc
  | tryPublish item =>
    cases h
    exact (TryPublish_closing item p).trans hc
  | worker k => exact (workerStep_closing h).trans hc
  | stop k => exact Stop_closing h

theorem run_closing {α : Type} {fuel : Nat} : ∀ (ops : List (Op α)) {p q : Pipeline α},
    run fuel ops p = some q → p.closing = true → q.closing = true := by
  intro ops
  induction ops with
  | nil => intro p q h hc; cases h; exact hc
  | cons op ops ih =>
    intro p q h hc
    rw [run] at h
    split at h
    · cases h
    · rename_i p' hs
      exact ih h (step_closing hs hc)

/-! ## TryPublish and Publish after Stop -/

/-- C4: in every state a pipeline can reach, whatever overflow strategy it
was built with, `TryPublish` returns true exactly when the pipeline is not
closing and the buffer holds fewer items than the capacity; it then appends
the item at the tail, and otherwise returns false and leaves the state as it
was, evicting nothing. -/
theorem TryPublish_accepts_iff_room {α : Type} (c : Int) (strat : OverflowStrategy)
    (fuel : Nat) (ops : List (Op α)) (p : Pipeline α)
    (hr : run fuel ops (NewPipeline c strat) = some p) (item : α) :
    ((TryPublish item p).1 = .ret true ↔
        (p.closing = false ∧ (p.ch.buf.length : Int) < p.capacity)) ∧
      ((TryPublish item p).1 = .ret true →
        (TryPublish item p).2 = { p with ch := { p.ch with buf := p.ch.buf ++ [item] } }) ∧
      ((TryPublish item p).1 ≠ .ret true →
        (TryPublish item p).1 = .ret false ∧ (TryPublish item p).2 = p) := by
  obtain ⟨h1, h2, h3, h4⟩ := (run_inv ops hr (inv_NewPipeline c strat)).1
  have hcap : (p.ch.cap : Int) = p.capacity := by rw [h2]; omega
  by_cases hc : p.closing = true
  · have e : TryPublish item p = (.ret false, p) := by simp [TryPublish, hc]
    rw [e]
    simp [hc]
  · have hc' : p.closing = false := by simpa using hc
    have hcl : p.ch.closed = false := h1.trans hc'
    by_cases hlt : p.ch.buf.length < p.ch.cap
    · have e : TryPublish item p =
          (.ret true, { p with ch := { p.ch with buf := p.ch.buf ++ [item] } }) := by
        simp [TryPublish, hc', trySend_of_room item hcl hlt]
      rw [e]
      refine ⟨?_, fun _ => rfl, fun h => absurd rfl h⟩
      simp only [true_iff]
      exact ⟨hc', by omega⟩
    · have e : TryPublish item p = (.ret false, p) := by
        simp [TryPublish, hc', trySend_of_full item hcl (by omega)]
      rw [e]
      refine ⟨?_, fun h => by simp at h, fun _ => ⟨rfl, rfl⟩⟩
      simp only [TryOutcome.ret.injEq, Bool.false_eq_true, false_iff, not_and]
      intro _
      omega

/-- C4 at a pipeline of capacity 1 built with the unrecognised strategy 7,
after one accepted item: the second item is refused. -/
theorem TryPublish_accepts_iff_room_witness :
    run 0 [Op.tryPublish (5 : Nat)] (NewPipeline 1 7) = some (TryPublish 5 (NewPipeline 1 7)).2 ∧
      (TryPublish 9 (TryPublish (5 : Nat) (NewPipeline 1 7)).2).1 = .ret false ∧
      (TryPublish 9 (TryPublish (5 : Nat) (NewPipeline 1 7)).2).2 =
        (TryPublish (5 : Nat) (NewPipeline 1 7)).2 :=
  ⟨rfl,
    (TryPublish_accepts_iff_room 1 7 0 [Op.tryPublish (5 : Nat)]
      (TryPublish 5 (NewPipeline 1 7)).2 rfl 9).2.2 (by decide)⟩

/-- C5: once `Stop` has been called on a pipeline, every `Publish` made later,
after any further steps, with any stored strategy and any buffer fill,
returns the error "pipeline is closed" and leaves the state, hence the buffer,
as it was. -/
theorem Publish_after_Stop_is_closed {α : Type} (fuel : Nat) (pick : Nat → Bool)
    (p p1 : Pipeline α) (hstop : Stop fuel pick p = some p1)
    (fuel2 : Nat) (ops : List (Op α)) (q : Pipeline α) (hrun : run fuel2 ops p1 = some q)
    (fuel3 : Nat) (ctxDone k : Bool) (item : α) :
    Publish fuel3 ctxDone k item q = some (.error "pipeline is closed", q) := by
  have hq : q.closing = true := run_closing ops hrun (Stop_closing hstop)
  simp [Publish, hq]

/-- C5 at a pipeline built with the unrecognised strategy 9: after `Stop` and
a refused `TryPublish`, `Publish` reports the closed pipeline. -/
theorem Publish_after_Stop_is_closed_witness :
    Stop 0 (fun _ => false) (NewPipeline 2 9 : Pipeline Nat) =
        some { (NewPipeline 2 9 : Pipeline Nat) with
          closing := true, ch := { cap := 2, buf := [], closed := true } } ∧
      Publish 0 false false (4 : Nat)
          { (NewPipeline 2 9 : Pipeline Nat) with
            closing := true, ch := { cap := 2, buf := [], closed := true } } =
        some (.error "pipeline is closed",
          { (NewPipeline 2 9 : Pipeline Nat) with
            closing := true, ch := { cap := 2, buf := [], closed := true } }) :=
  ⟨rfl,
    Publish_after_Stop_is_closed 0 (fun _ => false) (NewPipeline 2 9)
      { (NewPipeline 2 9 : Pipeline Nat) with
        closing := true, ch := { cap := 2, buf := [], closed := true } } rfl
      0 [Op.tryPublish 3]
      { (NewPipeline 2 9 : Pipeline Nat) with
        closing := true, ch := { cap := 2, buf := [], closed := true } } rfl
      0 false false 4⟩

/-! ## The drop-oldest loop -/

theorem dropOldestLoop_open {α : Type} (ch : Chan α) (item : α) (hcl : ch.closed = false)
    (hcap : 1 ≤ ch.cap) (hlen : ch.buf.length ≤ ch.cap) (fuel : Nat) (hf : 2 ≤ fuel) :
    dropOldestLoop fuel ch item =
      some (.nil, { ch with buf := (ch.buf ++ [item]).drop (ch.buf.length + 1 - ch.cap) }) := by
  obtain ⟨n, rfl⟩ : ∃ n, fuel = n + 2 := ⟨fuel - 2, by omega⟩
  by_cases hlt : ch.buf.length < ch.cap
  · rw [dropOldestLoop, trySend_of_room item hcl hlt]
    have : ch.buf.length + 1 - ch.cap = 0 := by omega
    simp [this]
  · have hfull : ch.cap ≤ ch.buf.length := by omega
    rw [dropOldestLoop, trySend_of_full item hcl hfull]
    simp only
    have hne : ch.buf ≠ [] := by
      intro h
      rw [h] at hfull
      simp at hfull
      omega
    obtain ⟨x, rest, hb⟩ := List.exists_cons_of_ne_nil hne
    have hlt2 : ({ ch with buf := ch.buf.tail } : Chan α).buf.length <
        ({ ch with buf := ch.buf.tail } : Chan α).cap := by
      simp [hb]
      rw [hb] at hlen
      simp at hlen
      omega
    rw [dropOldestLoop, trySend_of_room item (by exact hcl) hlt2]
    have : ch.buf.length + 1 - ch.cap = 1 := by omega
    rw [hb] at this
    simp only [List.length_cons] at this
    simp [hb, this]

theorem Publish_dropOldest {α : Type} (p : Pipeline α) (hp : Inv p)
    (hopen : p.closing = false) (hs : p.strat = OverflowDropOldest) (fuel : Nat)
    (hf : 2 ≤ fuel) (c k : Bool) (item : α) :
    Publish fuel c k item p =
      some (.nil, { p with ch := { p.ch with
        buf := (p.ch.buf ++ [item]).drop (p.ch.buf.length + 1 - p.ch.cap) } }) := by
  obtain ⟨h1, h2, h3, h4⟩ := hp
  have hcl : p.ch.closed = false := h1.trans hopen
  have hcap : 1 ≤ p.ch.cap := by rw [h2]; omega
  have hne : p.strat ≠ OverflowBlock := by rw [hs]; decide
  simp [Publish, hopen, hs, dropOldestLoop_open p.ch item hcl hcap h4 fuel hf]
  intro h
  exact absurd h (by decide)

theorem publishAll_dropOldest {α : Type} (fuel : Nat) (hf : 2 ≤ fuel) (c k : Bool) :
    ∀ (items : List α) (p : Pipeline α), Inv p → p.closing = false →
      p.strat = OverflowDropOldest →
      publishAll fuel c k items p =
        some (List.replicate items.length .nil, { p with ch := { p.ch with
          buf := (p.ch.buf ++ items).drop (p.ch.buf.length + items.length - p.ch.cap) } }) := by
  intro items
  induction items with
  | nil =>
    intro p hp _ _
    have : p.ch.buf.length - p.ch.cap = 0 := by have := hp.2.2.2; omega
    simp [publishAll, this]
  | cons x rest ih =>
    intro p hp hopen hs
    have e := Publish_dropOldest p hp hopen hs fuel hf c k x
    obtain ⟨hq, _, _⟩ := Publish_inv e hp
    have hlen := hp.2.2.2
    rw [publishAll, e]
    simp only
    rw [ih _ hq hopen hs]
    simp only [List.length_cons, List.replicate_succ, Option.some.injEq, Prod.mk.injEq,
      true_and]
    congr 2
    have hd : p.ch.buf.length + 1 - p.ch.cap ≤ (p.ch.buf ++ [x]).length := by
      simp only [List.length_append, List.length_singleton]
      omega
    rw [← List.drop_append_of_le_length hd, List.drop_drop]
    simp only [List.append_assoc, List.singleton_append, List.length_drop, List.length_append,
      List.length_singleton]
    congr 1
    omega

theorem run_config {α : Type} {c : Int} {strat : OverflowStrategy} {fuel : Nat}
    {ops : List (Op α)} {p : Pipeline α} (hr : run fuel ops (NewPipeline c strat) = some p) :
    Inv p ∧ p.capacity = max c 1 ∧ p.strat = strat ∧ (p.ch.cap : Int) = max c 1 := by
  obtain ⟨h1, ⟨h2, h3, h4⟩, _⟩ := run_inv ops hr (inv_NewPipeline c strat)
  have hc : (NewPipeline c strat : Pipeline α).capacity = max c 1 := by
    unfold NewPipeline
    by_cases h : c ≤ 0
    · simp [h]; omega
    · simp [h]; omega
  have hcap : (p.ch.cap : Int) = p.capacity := by
    have := h1.2.1
    have := h1.2.2.1
    omega
  refine ⟨h1, h2.trans hc, h3, ?_⟩
  rw [hcap, h2, hc]

/-- C1: for every capacity `C >= 1`, on an open pipeline built with
`OverflowDropOldest` whose buffer is empty, publishing `C + K` items (`K > 0`)
one after another, the worker taking nothing in between, returns `nil` from
every call and leaves in the buffer exactly the last `C` items published,
oldest first. -/
theorem publish_dropOldest_keeps_last {α : Type} (C : Int) (hC : 1 ≤ C) (fuel : Nat)
    (ops : List (Op α)) (p : Pipeline α)
    (hr : run fuel ops (NewPipeline C OverflowDropOldest) = some p)
    (hopen : p.closing = false) (hempty : p.ch.buf = [])
    (K : Nat) (hK : 0 < K) (items : List α) (hlen : (items.length : Int) = C + K)
    (fuel2 : Nat) (hf : 2 ≤ fuel2) (ctxDone k : Bool) :
    publishAll fuel2 ctxDone k items p =
        some (List.replicate items.length .nil,
          { p with ch := { p.ch with buf := items.drop K } }) ∧
      ((items.drop K).length : Int) = C := by
  obtain ⟨hp, hcap, hs, hchcap⟩ := run_config hr
  have hmax : max C 1 = C := max_eq_left hC
  rw [hmax] at hchcap
  refine ⟨?_, ?_⟩
  · rw [publishAll_dropOldest fuel2 hf ctxDone k items p hp hopen hs]
    have : p.ch.buf.length + items.length - p.ch.cap = K := by
      rw [hempty]
      simp only [List.length_nil]
      omega
    rw [this, hempty]
    simp
  · simp only [List.length_drop]
    omega

/-- C1 at capacity 2 with the items 10, 20, 30: all three calls return
`nil` and the buffer ends as 20, 30. -/
theorem publish_dropOldest_keeps_last_witness :
    publishAll 2 false false [10, 20, 30] (NewPipeline 2 OverflowDropOldest : Pipeline Nat) =
        some ([.nil, .nil, .nil],
          { (NewPipeline 2 OverflowDropOldest : Pipeline Nat) with
            ch := { cap := 2, buf := [20, 30], closed := false } }) ∧
      ((([10, 20, 30] : List Nat).drop 1).length : Int) = 2 :=
  publish_dropOldest_keeps_last 2 (by decide) 0 [] (NewPipeline 2 OverflowDropOldest) rfl rfl rfl
    1 (by decide) [10, 20, 30] (by decide) 2 (by decide) false false

/-! ## The worker -/

theorem workerLoop_take {α : Type} (fuel : Nat) (pick : Nat → Bool) :
    ∀ (k : Nat) (p : Pipeline α), p.worker = .running → p.ctxDone = false →
      p.stages.length ≤ fuel → k ≤ p.ch.buf.length →
      workerLoop fuel pick k p =
        some { p with
          ch := { p.ch with buf := p.ch.buf.drop k }
          taken := p.taken ++ p.ch.buf.take k
          log := p.log ++ (p.ch.buf.take k).flatMap (chainTrace p.stages) } := by
  intro k
  induction k with
  | zero =>
    intro p _ _ _ _
    simp [workerLoop]
  | succ k ih =>
    intro p hw hc hf hk
    obtain ⟨capacity, strat, stages, ⟨cap, buf, closed⟩, closing, worker, ctx, taken, log⟩ := p
    simp only at hw hc hf hk
    subst hw hc
    cases buf with
    | nil => simp at hk
    | cons it rest =>
      simp only [List.length_cons, Nat.add_le_add_iff_right] at hk
      rw [workerLoop]
      simp only [workerStep, Bool.false_and, Bool.false_eq_true, if_false,
        execute_eq stages fuel hf it log]
      rw [ih _ rfl rfl hf hk]
      simp [List.append_assoc]

theorem chainTrace_head {α : Type} (s : Stage α) (ss : List (Stage α)) (it : α) :
    ∃ t, chainTrace (s :: ss) it = (0, it) :: t := by
  have hn : ∀ (it' : α) (j : Nat) (M1 M2 : List (Nat × α)), 1 ≤ j →
      ∃ r i' t, next (s :: ss) ss.length it' ⟨j, M1⟩ = some (r, ⟨i', M1 ++ t⟩) ∧
        next (s :: ss) ss.length it' ⟨j, M2⟩ = some (r, ⟨i', M2 ++ t⟩) ∧ j ≤ i' :=
    fun it' j M1 M2 hj =>
      next_rel (s :: ss) ss.length ss.length it' j M1 M2 (by simp; omega) (by simp; omega)
  obtain ⟨r, i', t, e1, _, _⟩ := runStage_rel hn (s it) 1 [(0, it)] [(0, it)] (le_refl _)
  refine ⟨t, ?_⟩
  unfold chainTrace execute
  rw [List.length_cons, next]
  simp only [List.length_cons, Nat.zero_lt_succ, dite_true, List.nil_append, zero_add,
    List.getElem_cons_zero]
  rw [e1]
  simp

/-- C8: with the worker running and its context never firing, the worker
takes the buffered items one at a time in the order they stand in the buffer
(the order in which they were accepted), runs the whole chain of an item
before it takes the next one, and the stage invocations it makes for an item
are those of that item alone, starting at stage 0, whatever earlier chains
returned: after `k` iterations the first `k` items have been taken and the log
has grown by their chains, in order. -/
theorem worker_processes_fifo {α : Type} (p : Pipeline α) (hw : p.worker = .running)
    (hctx : p.ctxDone = false) (fuel : Nat) (hf : p.stages.length ≤ fuel)
    (pick : Nat → Bool) :
    (∀ k, k ≤ p.ch.buf.length →
        workerLoop fuel pick k p =
          some { p with
            ch := { p.ch with buf := p.ch.buf.drop k }
            taken := p.taken ++ p.ch.buf.take k
            log := p.log ++ (p.ch.buf.take k).flatMap (chainTrace p.stages) }) ∧
      (∀ it, p.stages ≠ [] → ∃ t, chainTrace p.stages it = (0, it) :: t) := by
  refine ⟨fun k hk => workerLoop_take fuel pick k p hw hctx hf hk, fun it hne => ?_⟩
  obtain ⟨s, ss, hs⟩ := List.exists_cons_of_ne_nil hne
  rw [hs]
  exact chainTrace_head s ss it

/-- C8 at `sampleRunning`: item 1 fails in stage 0, and item 2 still runs
stages 0 and 1. -/
theorem worker_processes_fifo_witness :
    (sampleRunning.worker = .running ∧ sampleRunning.ctxDone = false ∧
        sampleRunning.stages.length ≤ 2) ∧
      workerLoop 2 (fun _ => false) 2 sampleRunning =
        some { sampleRunning with
          ch := { sampleRunning.ch with buf := sampleRunning.ch.buf.drop 2 }
          taken := sampleRunning.taken ++ sampleRunning.ch.buf.take 2
          log := sampleRunning.log ++
            (sampleRunning.ch.buf.take 2).flatMap (chainTrace sampleRunning.stages) } ∧
      (workerLoop 2 (fun _ => false) 2 sampleRunning).map (fun q => (q.taken, q.log)) =
        some ([1, 2], [(0, 1), (0, 2), (1, 102)]) :=
  ⟨⟨rfl, rfl, by decide⟩,
    (worker_processes_fifo sampleRunning rfl rfl 2 (by decide) (fun _ => false)).1 2
      (by decide),
    rfl⟩

/-! ## Publish under the drop-newest and blocking strategies -/

/-- C2: on an open pipeline built with `OverflowDropNewest` whose buffer
holds exactly `capacity` items, `Publish` of any item returns the error
"dropped newest item due to overflow" and leaves the state as it was; the
worker, once running with a context that does not fire, then takes exactly the
items that were buffered, in their order. -/
theorem publish_dropNewest_full {α : Type} (c : Int) (fuel : Nat) (ops : List (Op α))
    (p : Pipeline α) (hr : run fuel ops (NewPipeline c OverflowDropNewest) = some p)
    (hopen : p.closing = false) (hfull : (p.ch.buf.length : Int) = p.capacity)
    (fuel2 : Nat) (ctxDone k : Bool) (item : α) :
    Publish fuel2 ctxDone k item p =
        some (.error "dropped newest item due to overflow", p) ∧
      (p.worker = .running → p.ctxDone = false → p.stages.length ≤ fuel2 →
        ∀ pick, workerLoop fuel2 pick p.ch.buf.length p =
          some { p with
            ch := { p.ch with buf := [] }
            taken := p.taken ++ p.ch.buf
            log := p.log ++ p.ch.buf.flatMap (chainTrace p.stages) }) := by
  obtain ⟨hp, hcap, hs, hchcap⟩ := run_config hr
  obtain ⟨h1, h2, h3, h4⟩ := hp
  have hcl : p.ch.closed = false := h1.trans hopen
  have hge : p.ch.cap ≤ p.ch.buf.length := by omega
  refine ⟨?_, fun hw hc hf pick => ?_⟩
  · have hnb : ¬ OverflowDropNewest = OverflowBlock := by decide
    have hno : ¬ OverflowDropNewest = OverflowDropOldest := by decide
    simp [Publish, hopen, hs, hnb, hno, trySend_of_full item hcl hge]
  · have := workerLoop_take fuel2 pick p.ch.buf.length p hw hc hf (le_refl _)
    simpa using this

/-- C2 at capacity 1: with 5 buffered, publishing 6 is refused. -/
theorem publish_dropNewest_full_witness :
    (run 0 [Op.tryPublish (5 : Nat)] (NewPipeline 1 OverflowDropNewest) =
        some (TryPublish 5 (NewPipeline 1 OverflowDropNewest)).2) ∧
      Publish 0 false false 6 (TryPublish (5 : Nat) (NewPipeline 1 OverflowDropNewest)).2 =
        some (.error "dropped newest item due to overflow",
          (TryPublish (5 : Nat) (NewPipeline 1 OverflowDropNewest)).2) ∧
      (TryPublish (5 : Nat) (NewPipeline 1 OverflowDropNewest)).2.ch.buf = [5] :=
  ⟨rfl,
    (publish_dropNewest_full 1 0 [Op.tryPublish (5 : Nat)]
      (TryPublish 5 (NewPipeline 1 OverflowDropNewest)).2 rfl rfl rfl 0 false false 6).1,
    rfl⟩

theorem Publish_block_room {α : Type} (p : Pipeline α) (hp : Inv p) (hopen : p.closing = false)
    (hs : p.strat = OverflowBlock) (hlt : p.ch.buf.length < p.ch.cap) (fuel : Nat) (k : Bool)
    (item : α) :
    Publish fuel false k item p =
      some (.nil, { p with ch := { p.ch with buf := p.ch.buf ++ [item] } }) := by
  have hcl : p.ch.closed = false := hp.1.trans hopen
  simp [Publish, hopen, hs, trySend_of_room item hcl hlt]

theorem Publish_block_full {α : Type} (p : Pipeline α) (hp : Inv p) (hopen : p.closing = false)
    (hs : p.strat = OverflowBlock) (hge : p.ch.cap ≤ p.ch.buf.length) (fuel : Nat) (k : Bool)
    (item : α) :
    Publish fuel false k item p = some (.blocked, p) := by
  have hcl : p.ch.closed = false := hp.1.trans hopen
  simp [Publish, hopen, hs, trySend_of_full item hcl hge]

theorem publishAll_block {α : Type} (fuel : Nat) (k : Bool) :
    ∀ (items : List α) (p : Pipeline α), Inv p → p.closing = false →
      p.strat = OverflowBlock → p.ch.buf.length + items.length ≤ p.ch.cap →
      publishAll fuel false k items p =
        some (List.replicate items.length .nil,
          { p with ch := { p.ch with buf := p.ch.buf ++ items } }) := by
  intro items
  induction items with
  | nil =>
    intro p _ _ _ _
    simp [publishAll]
  | cons x rest ih =>
    intro p hp hopen hs hlen
    simp only [List.length_cons] at hlen
    have e := Publish_block_room p hp hopen hs (by omega) fuel k x
    obtain ⟨hq, _, _⟩ := Publish_inv e hp
    rw [publishAll, e]
    simp only
    rw [ih _ hq hopen hs (by simp; omega)]
    simp [List.replicate_succ]

theorem workerStep_buf {α : Type} {fuel : Nat} {k : Bool} {p q : Pipeline α}
    (h : workerStep fuel k p = some q) :
    q.ch.buf = p.ch.buf ∨ (p.ch.buf ≠ [] ∧ q.ch.buf = p.ch.buf.tail) := by
  unfold workerStep at h
  split at h
  · split at h
    · cases h; exact Or.inl rfl
    · split at h
      · rename_i it rest hb
        split at h
        · cases h
        · cases h
          right
          simp [hb]
      · split at h <;> cases h <;> exact Or.inl rfl
  · cases h; exact Or.inl rfl

/-- C3: on an open pipeline built with `OverflowBlock`, with a caller context
that never fires: `Publish` on a buffer with room returns `nil` and appends
the item at the tail, so publishing up to `capacity` items into an empty
buffer succeeds call after call with no consumer; `Publish` on a buffer
holding `capacity` items stays suspended and changes nothing; once a worker
iteration has removed an item, `Publish` returns `nil` with the item behind
those still buffered; and a running worker does remove the oldest item. -/
theorem publish_block {α : Type} (c : Int) (fuel : Nat) (ops : List (Op α)) (p : Pipeline α)
    (hr : run fuel ops (NewPipeline c OverflowBlock) = some p) (hopen : p.closing = false)
    (fuel2 : Nat) (k : Bool) (item : α) :
    ((p.ch.buf.length : Int) < p.capacity →
        Publish fuel2 false k item p =
          some (.nil, { p with ch := { p.ch with buf := p.ch.buf ++ [item] } })) ∧
      (p.ch.buf = [] → ∀ items : List α, (items.length : Int) ≤ p.capacity →
        publishAll fuel2 false k items p =
          some (List.replicate items.length .nil,
            { p with ch := { p.ch with buf := items } })) ∧
      ((p.ch.buf.length : Int) = p.capacity →
        Publish fuel2 false k item p = some (.blocked, p) ∧
        (∀ (wfuel : Nat) (pick : Bool) (q : Pipeline α), workerStep wfuel pick p = some q →
          q.ch.buf.length < p.ch.buf.length →
          q.ch.buf = p.ch.buf.tail ∧
          Publish fuel2 false k item q =
            some (.nil, { q with ch := { q.ch with buf := p.ch.buf.tail ++ [item] } })) ∧
        (p.worker = .running → p.ctxDone = false → p.stages.length ≤ fuel2 →
          ∀ pick, ∃ q, workerStep fuel2 pick p = some q ∧
            q.ch.buf.length < p.ch.buf.length)) := by
  obtain ⟨hp, hcap, hs, hchcap⟩ := run_config hr
  have hpc : (p.ch.cap : Int) = p.capacity := by rw [hchcap, hcap]
  refine ⟨fun hlt => ?_, fun hempty items hlen => ?_, fun hfull => ⟨?_, ?_, ?_⟩⟩
  · exact Publish_block_room p hp hopen hs (by omega) fuel2 k item
  · have := publishAll_block fuel2 k items p hp hopen hs (by rw [hempty]; simp; omega)
    rw [this, hempty]
    simp
  · exact Publish_block_full p hp hopen hs (by omega) fuel2 k item
  · intro wfuel pick q hq hlt
    obtain ⟨hqi, ⟨_, hqs, hqc⟩, hqcl⟩ := workerStep_inv hq hp
    have hb : q.ch.buf = p.ch.buf.tail := by
      rcases workerStep_buf hq with h | ⟨_, h⟩
      · rw [h] at hlt; omega
      · exact h
    refine ⟨hb, ?_⟩
    have := Publish_block_room q hqi (hqcl.trans hopen) (hqs.trans hs) (by omega) fuel2 k item
    rw [this, hb]
  · intro hw hc hf pick
    have hne : 1 ≤ p.ch.buf.length := by have := hp.2.2.1; omega
    have := workerLoop_take fuel2 (fun _ => pick) 1 p hw hc hf hne
    simp only [workerLoop] at this
    split at this
    · cases this
    · rename_i q hq
      refine ⟨q, hq, ?_⟩
      simp only [Option.some.injEq] at this
      rw [this]
      simp
      omega

/-- C3 on the scenario of capacity 2 with one pass-through stage: 1 and 2
are accepted, 3 is suspended, and after the worker has taken 1 it is accepted
behind 2. -/
theorem publish_block_witness :
    (run 1 [Op.use passStage, Op.start false, Op.publish false false 1,
          Op.publish false false 2] (NewPipeline 2 OverflowBlock) = some sampleFull ∧
        sampleFull.closing = false ∧
        (sampleFull.ch.buf.length : Int) = sampleFull.capacity) ∧
      Publish 1 false false 3 sampleFull = some (.blocked, sampleFull) ∧
      ((workerStep 1 false sampleFull).bind (fun q => Publish 1 false false 3 q)).map
          (fun r => (r.1, r.2.ch.buf)) = some (.nil, [2, 3]) :=
  ⟨⟨rfl, rfl, by decide⟩,
    ((publish_block 2 1 [Op.use passStage, Op.start false, Op.publish false false 1,
      Op.publish false false 2] sampleFull rfl rfl 1 false 3).2.2 (by decide)).1,
    rfl⟩

/-! ## Enough fuel lets every step return -/

theorem Publish_total {α : Type} (p : Pipeline α) (hp : Inv p) (fuel : Nat) (hf : 2 ≤ fuel)
    (c k : Bool) (item : α) :
    ∃ r q, Publish fuel c k item p = some (r, q) ∧ q.stages = p.stages := by
  by_cases hc : p.closing = true
  · exact ⟨.error "pipeline is closed", p, by simp [Publish, hc], rfl⟩
  · have hopen : p.closing = false := by simpa using hc
    by_cases hs : p.strat = OverflowDropOldest
    · exact ⟨_, _, Publish_dropOldest p hp hopen hs fuel hf c k item, rfl⟩
    · unfold Publish
      simp only [hopen, Bool.false_eq_true, if_false, hs]
      split
      · split <;> split <;> exact ⟨_, _, rfl, rfl⟩
      · split
        · split <;> exact ⟨_, _, rfl, rfl⟩
        · exact ⟨_, _, rfl, rfl⟩

theorem workerStep_total {α : Type} (p : Pipeline α) (fuel : Nat)
    (hf : p.stages.length ≤ fuel) (k : Bool) :
    ∃ q, workerStep fuel k p = some q ∧ q.stages = p.stages := by
  unfold workerStep
  split
  · split
    · exact ⟨_, rfl, rfl⟩
    · split
      · rename_i it rest hb
        rw [execute_eq p.stages fuel hf]
        exact ⟨_, rfl, rfl⟩
      · split <;> exact ⟨_, rfl, rfl⟩
  · exact ⟨_, rfl, rfl⟩

theorem workerLoop_total {α : Type} (fuel : Nat) (pick : Nat → Bool) :
    ∀ (n : Nat) (p : Pipeline α), p.stages.length ≤ fuel →
      ∃ q, workerLoop fuel pick n p = some q ∧ q.stages = p.stages := by
  intro n
  induction n with
  | zero => intro p _; exact ⟨p, rfl, rfl⟩
  | succ n ih =>
    intro p hf
    obtain ⟨q, hq, hqs⟩ := workerStep_total p fuel hf (pick n)
    obtain ⟨r, hr, hrs⟩ := ih q (by rw [hqs]; exact hf)
    refine ⟨r, ?_, hrs.trans hqs⟩
    rw [workerLoop, hq]
    exact hr

theorem Stop_total {α : Type} (p : Pipeline α) (fuel : Nat) (hf : p.stages.length ≤ fuel)
    (pick : Nat → Bool) : ∃ q, Stop fuel pick p = some q ∧ q.stages = p.stages := by
  unfold Stop
  split
  · exact ⟨p, rfl, rfl⟩
  · exact workerLoop_total fuel pick _ _ hf

theorem step_total {α : Type} (p : Pipeline α) (hp : Inv p) (fuel : Nat) (hf : 2 ≤ fuel)
    (hs : p.stages.length ≤ fuel) (op : Op α) :
    ∃ q, step fuel p op = some q ∧ q.stages.length ≤ p.stages.length + 1 := by
  cases op with
  | use s => exact ⟨_, rfl, by simp [Use]⟩
  | start c =>
    refine ⟨_, rfl, ?_⟩
    unfold Start
    split <;> simp
  | cancel => exact ⟨_, rfl, by simp [cancelCtx]⟩
  | publish c k item =>
    obtain ⟨r, q, hq, hqs⟩ := Publish_total p hp fuel hf c k item
    exact ⟨q, by simp [step, hq], by rw [hqs]; omega⟩
  | tryPublish item =>
    refine ⟨_, rfl, ?_⟩
    unfold TryPublish
    split
    · simp
    · split <;> simp
  | worker k =>
    obtain ⟨q, hq, hqs⟩ := workerStep_total p fuel hs k
    exact ⟨q, hq, by rw [hqs]; omega⟩
  | stop k =>
    obtain ⟨q, hq, hqs⟩ := Stop_total p fuel hs k
    exact ⟨q, hq, by rw [hqs]; omega⟩

theorem run_total {α : Type} (fuel : Nat) : ∀ (ops : List (Op α)) (p : Pipeline α), Inv p →
    p.stages.length + ops.length + 2 ≤ fuel → ∃ q, run fuel ops p = some q := by
  intro ops
  induction ops with
  | nil => intro p _ _; exact ⟨p, rfl⟩
  | cons op ops ih =>
    intro p hp hf
    simp only [List.length_cons] at hf
    obtain ⟨q, hq, hqs⟩ := step_total p hp fuel (by omega) (by omega) op
    obtain ⟨r, hr⟩ := ih q (step_inv hq hp).1 (by omega)
    exact ⟨r, by rw [run, hq]; exact hr⟩

theorem run_NewPipeline_bounded {α : Type} (c : Int) (strat : OverflowStrategy) :
    (NewPipeline c strat : Pipeline α).capacity = max c 1 ∧
      (∀ (fuel : Nat) (ops : List (Op α)) (p : Pipeline α),
        run fuel ops (NewPipeline c strat) = some p → (p.ch.buf.length : Int) ≤ max c 1) ∧
      (∀ (ops : List (Op α)) (fuel : Nat), ops.length + 2 ≤ fuel →
        ∃ p, run fuel ops (NewPipeline c strat) = some p ∧
          (p.ch.buf.length : Int) ≤ max c 1) := by
  have key : ∀ (fuel : Nat) (ops : List (Op α)) (p : Pipeline α),
      run fuel ops (NewPipeline c strat) = some p → (p.ch.buf.length : Int) ≤ max c 1 := by
    intro fuel ops p hr
    obtain ⟨hp, _, _, hchcap⟩ := run_config hr
    have := hp.2.2.2
    omega
  refine ⟨?_, key, ?_⟩
  · have := (run_config (rfl : run 0 [] (NewPipeline c strat : Pipeline α) = _)).2.1
    exact this
  · intro ops fuel hf
    obtain ⟨p, hp⟩ := run_total fuel ops (NewPipeline c strat) (inv_NewPipeline c strat)
      (by simpa [NewPipeline] using hf)
    exact ⟨p, hp, key fuel ops p hp⟩

theorem coerced_capacity (c : Int) : (if c ≤ 0 then 1 else c) = max c 1 := by
  by_cases h : c ≤ 0
  · simp [h]; omega
  · simp [h]; omega

theorem NewPipelineCall_inRange {α : Type} (maxAlloc : Nat) (c : Int) (strat : OverflowStrategy)
    (h : makechanInRange maxAlloc (max c 1) = true) :
    (NewPipelineCall maxAlloc c strat : Option (Pipeline α)) = some (NewPipeline c strat) := by
  unfold NewPipelineCall NewPipeline makechan
  simp only [coerced_capacity, h, if_true]

theorem NewPipelineCall_outOfRange {α : Type} (maxAlloc : Nat) (c : Int)
    (strat : OverflowStrategy) (h : makechanInRange maxAlloc (max c 1) = false) :
    (NewPipelineCall maxAlloc c strat : Option (Pipeline α)) = none := by
  unfold NewPipelineCall makechan
  simp only [coerced_capacity, h, Bool.false_eq_true, if_false]

/-- C6, as amended: for every integer capacity argument `c` whose coerced
value `max c 1` passes the size check of `make` (every `c <= 0` does, being
coerced to 1, as soon as the runtime can allocate one element), the call
`NewPipeline(c, strat)` returns a pipeline of capacity `max c 1` with an empty
buffer, no stage and `closing` unset; after any sequence of `Use`, `Start`,
context cancellation, `Publish`, `TryPublish`, worker iterations and `Stop`
applied to it the buffer holds at most `max c 1` items; and with enough fuel
every such sequence runs to its end. -/
theorem buffer_never_exceeds_capacity {α : Type} (maxAlloc : Nat) (c : Int)
    (strat : OverflowStrategy) (hc : makechanInRange maxAlloc (max c 1) = true) :
    ∃ p0 : Pipeline α,
      NewPipelineCall maxAlloc c strat = some p0 ∧
      p0.ch.buf = [] ∧ p0.stages = [] ∧ p0.closing = false ∧ p0.capacity = max c 1 ∧
      (c ≤ 0 → p0.capacity = 1) ∧
      (∀ (fuel : Nat) (ops : List (Op α)) (p : Pipeline α),
        run fuel ops p0 = some p → (p.ch.buf.length : Int) ≤ max c 1) ∧
      (∀ (ops : List (Op α)) (fuel : Nat), ops.length + 2 ≤ fuel →
        ∃ p, run fuel ops p0 = some p ∧ (p.ch.buf.length : Int) ≤ max c 1) := by
  obtain ⟨h1, h2, h3⟩ := run_NewPipeline_bounded (α := α) c strat
  refine ⟨NewPipeline c strat, NewPipelineCall_inRange maxAlloc c strat hc, rfl, rfl, rfl, h1,
    fun hle => ?_, h2, h3⟩
  rw [h1]
  exact max_eq_right (by omega)

/-- C6, as amended, at the capacity argument -3 under the drop-oldest
strategy on linux/amd64: the call returns a pipeline of capacity 1, and after
two publishes its buffer holds one item. -/
theorem buffer_never_exceeds_capacity_witness :
    makechanInRange maxAlloc64 (max (-3) 1) = true ∧
      (NewPipelineCall maxAlloc64 (-3) OverflowDropOldest : Option (Pipeline Nat)) =
        some (NewPipeline (-3) OverflowDropOldest) ∧
      ((NewPipelineCall maxAlloc64 (-3) OverflowDropOldest : Option (Pipeline Nat)).bind
          (run 2 [Op.publish false false 4, Op.publish false false 5])).map
        (fun q => (q.capacity, q.ch.buf)) = some (1, [5]) ∧
      (∃ p0 : Pipeline Nat,
        NewPipelineCall maxAlloc64 (-3) OverflowDropOldest = some p0 ∧
        p0.ch.buf = [] ∧ p0.stages = [] ∧ p0.closing = false ∧ p0.capacity = max (-3) 1 ∧
        ((-3 : Int) ≤ 0 → p0.capacity = 1) ∧
        (∀ (fuel : Nat) (ops : List (Op Nat)) (p : Pipeline Nat),
          run fuel ops p0 = some p → (p.ch.buf.length : Int) ≤ max (-3) 1) ∧
        (∀ (ops : List (Op Nat)) (fuel : Nat), ops.length + 2 ≤ fuel →
          ∃ p, run fuel ops p0 = some p ∧ (p.ch.buf.length : Int) ≤ max (-3) 1)) :=
  ⟨by decide, rfl, rfl,
    buffer_never_exceeds_capacity maxAlloc64 (-3) OverflowDropOldest (by decide)⟩

/-- C6 as stated fails at the capacity argument `math.MaxInt64`: sixteen
times that size overflows `uintptr`, the size check of `make` fails, and the
call `NewPipeline(math.MaxInt64, OverflowBlock)` panics instead of returning a
pipeline. -/
theorem NewPipeline_panics_at_MaxInt64 :
    makechanInRange maxAlloc64 9223372036854775807 = false ∧
      (NewPipelineCall maxAlloc64 9223372036854775807 OverflowBlock :
        Option (Pipeline Nat)) = none :=
  ⟨by decide, NewPipelineCall_outOfRange maxAlloc64 9223372036854775807 OverflowBlock
    (by decide)⟩

/-! ## The chain executor against the run the specification describes -/

theorem useAll_stages {α : Type} : ∀ (ss : List (Stage α)) (p : Pipeline α),
    (useAll ss p).stages = p.stages ++ ss := by
  intro ss
  induction ss with
  | nil => intro p; simp [useAll]
  | cons s ss ih => intro p; simp [useAll, ih, Use]

theorem next_past_end {α : Type} (stages : List (Stage α)) (fuel : Nat) (it : α)
    (st : ExecState α) (h : stages.length ≤ st.index) :
    next stages fuel it st = some (none, st) := by
  have hn : ¬ st.index < stages.length := by omega
  rw [next]
  simp [hn]

theorem next_chainSpec {α : Type} (stages : List (Stage α))
    (hs : ∀ s ∈ stages, ∀ it, (s it).AtMostOnce) :
    ∀ (fuel i : Nat) (it : α) (log : List (Nat × α)), stages.length ≤ i + fuel →
      next stages fuel it ⟨i, log⟩ =
        some (chainResult (stages.drop i) it,
          ⟨i + (chainSpec (stages.drop i) i it).length,
            log ++ chainSpec (stages.drop i) i it⟩) := by
  intro fuel
  induction fuel with
  | zero =>
    intro i it log h
    rw [next_past_end stages 0 it ⟨i, log⟩ (by simpa using h)]
    have : stages.drop i = [] := List.drop_eq_nil_of_le (by omega)
    simp [this, chainSpec, chainResult]
  | succ n ih =>
    intro i it log h
    by_cases hlt : i < stages.length
    · have hd : stages.drop i = stages[i] :: stages.drop (i + 1) :=
        List.drop_eq_getElem_cons hlt
      have hmem : stages[i] ∈ stages := List.getElem_mem hlt
      have hone := hs _ hmem it
      rw [next]
      simp only [hlt, dite_true]
      rw [hd]
      cases hsi : stages[i] it with
      | ret e =>
        simp [runStage, chainSpec, chainResult, hsi]
      | callNext it2 k =>
        rw [hsi] at hone
        have hk : ∀ r, ∃ e, k r = .ret e := hone
        obtain ⟨e, he⟩ := hk (chainResult (stages.drop (i + 1)) it2)
        rw [runStage, ih (i + 1) it2 (log ++ [(i, it)]) (by omega)]
        simp only [he, runStage, chainSpec, chainResult, hsi, List.length_cons,
          List.append_assoc, List.singleton_append, Option.some.injEq, Prod.mk.injEq,
          ExecState.mk.injEq, and_true, true_and]
        omega
    · rw [next_past_end stages (n + 1) it ⟨i, log⟩ (by simpa using hlt)]
      have : stages.drop i = [] := List.drop_eq_nil_of_le (by omega)
      simp [this, chainSpec, chainResult]

theorem chainSpec_length_le {α : Type} : ∀ (stages : List (Stage α)) (i : Nat) (it : α),
    (chainSpec stages i it).length ≤ stages.length := by
  intro stages
  induction stages with
  | nil => intro i it; simp [chainSpec]
  | cons s rest ih =>
    intro i it
    rw [chainSpec]
    split
    · simp
    · rename_i it2 k _
      have := ih (i + 1) it2
      simp only [List.length_cons]
      omega

theorem chainSpec_indices {α : Type} : ∀ (stages : List (Stage α)) (i : Nat) (it : α),
    (chainSpec stages i it).map Prod.fst = List.range' i (chainSpec stages i it).length := by
  intro stages
  induction stages with
  | nil => intro i it; simp [chainSpec]
  | cons s rest ih =>
    intro i it
    rw [chainSpec]
    split
    · simp [List.range']
    · rename_i it2 k _
      simp [List.range', ih (i + 1) it2]

theorem chainSpec_head {α : Type} (s : Stage α) (rest : List (Stage α)) (i : Nat) (it : α) :
    (chainSpec (s :: rest) i it)[0]? = some (i, it) := by
  rw [chainSpec]
  simp

theorem chainSpec_links {α : Type} : ∀ (stages : List (Stage α)) (i : Nat) (it : α)
    (j : Nat) (s : Stage α) (x : Nat × α), stages[j]? = some s →
    (chainSpec stages i it)[j]? = some x →
    (∀ y, (chainSpec stages i it)[j + 1]? = some y → ∃ k, s x.2 = .callNext y.2 k) ∧
      ((chainSpec stages i it)[j + 1]? = none → j + 1 < stages.length →
        ∃ e, s x.2 = .ret e) := by
  intro stages
  induction stages with
  | nil => intro i it j s x h; simp at h
  | cons s0 rest ih =>
    intro i it j s x hs hx
    cases j with
    | zero =>
      simp only [List.getElem?_cons_zero, Option.some.injEq] at hs
      subst hs
      rw [chainSpec_head] at hx
      simp only [Option.some.injEq] at hx
      subst hx
      rw [chainSpec]
      cases hsi : s0 it with
      | ret e =>
        simp
      | callNext it2 k =>
        simp only [zero_add, List.getElem?_cons_succ]
        cases rest with
        | nil => simp [chainSpec]
        | cons s1 rest2 =>
          rw [chainSpec_head]
          refine ⟨fun y hy => ?_, fun h => by simp at h⟩
          simp only [Option.some.injEq] at hy
          subst hy
          exact ⟨k, rfl⟩
    | succ j2 =>
      simp only [List.getElem?_cons_succ] at hs
      rw [chainSpec] at hx ⊢
      cases hsi : s0 it with
      | ret e =>
        rw [hsi] at hx
        simp at hx
      | callNext it2 k =>
        rw [hsi] at hx
        simp only [List.getElem?_cons_succ] at hx ⊢
        obtain ⟨a, b⟩ := ih (i + 1) it2 j2 s x hs hx
        refine ⟨a, fun h hlt => b h ?_⟩
        simp only [List.length_cons] at hlt
        omega

theorem sample_atMostOnce :
    ∀ s ∈ [oddFails, consumerStage], ∀ it, (s it).AtMostOnce := by
  intro s hs it
  simp only [List.mem_cons, List.mem_singleton, List.not_mem_nil, or_false] at hs
  rcases hs with rfl | rfl
  · unfold oddFails
    split
    · trivial
    · intro r; exact ⟨r, rfl⟩
  · trivial

/-- C7: for stages registered with `Use` in the order `s0, ..., s(n-1)`, each
calling its continuation at most once, the chain of an item returns (given
fuel for the nesting) and runs the stages `s0, ..., sk` in that order, once
each and no other: the log holds the indices `0, 1, ..., k` with `k < n`; stage
0 receives the item; a stage followed by another one in the log called `next`
with exactly the item the follower received; a stage after which the log ends
while stages remain returned without calling `next`; and a continuation called
once all stages have been entered runs nothing and returns `nil`. -/
theorem execute_runs_stages_in_order {α : Type} (c : Int) (strat : OverflowStrategy)
    (stages : List (Stage α)) (hs : ∀ s ∈ stages, ∀ it, (s it).AtMostOnce) (item : α)
    (fuel : Nat) (hf : stages.length ≤ fuel) (log : List (Nat × α)) :
    (useAll stages (NewPipeline c strat)).stages = stages ∧
      next stages fuel item ⟨0, []⟩ =
        some (chainResult stages item,
          ⟨(chainSpec stages 0 item).length, chainSpec stages 0 item⟩) ∧
      execute fuel stages item log = some (log ++ chainSpec stages 0 item) ∧
      (chainSpec stages 0 item).map Prod.fst = List.range (chainSpec stages 0 item).length ∧
      (chainSpec stages 0 item).length ≤ stages.length ∧
      (stages ≠ [] → (chainSpec stages 0 item)[0]? = some (0, item)) ∧
      (∀ (j : Nat) (s : Stage α) (x : Nat × α), stages[j]? = some s →
        (chainSpec stages 0 item)[j]? = some x →
        (∀ y, (chainSpec stages 0 item)[j + 1]? = some y → ∃ k, s x.2 = .callNext y.2 k) ∧
          ((chainSpec stages 0 item)[j + 1]? = none → j + 1 < stages.length →
            ∃ e, s x.2 = .ret e)) ∧
      (∀ (fuel2 : Nat) (it : α) (st : ExecState α), stages.length ≤ st.index →
        next stages fuel2 it st = some (none, st)) := by
  have e0 := next_chainSpec stages hs fuel 0 item [] (by omega)
  have e1 := next_chainSpec stages hs fuel 0 item log (by omega)
  simp only [List.drop_zero, zero_add, List.nil_append] at e0 e1
  refine ⟨?_, e0, ?_, ?_, chainSpec_length_le stages 0 item, ?_, ?_, ?_⟩
  · rw [useAll_stages]
    simp [NewPipeline]
  · simp [execute, e1]
  · rw [chainSpec_indices, List.range_eq_range']
  · intro hne
    obtain ⟨s, ss, h⟩ := List.exists_cons_of_ne_nil hne
    rw [h]
    exact chainSpec_head s ss 0 item
  · exact chainSpec_links stages 0 item
  · exact fun fuel2 it st h => next_past_end stages fuel2 it st h

/-- C7 at the stages `oddFails`, `consumerStage`: the even item 2 runs stage 0
and then stage 1 with 102; the odd item 1 runs stage 0 only. -/
theorem execute_runs_stages_in_order_witness :
    (∀ s ∈ [oddFails, consumerStage], ∀ it, (s it).AtMostOnce) ∧
      execute 2 [oddFails, consumerStage] 2 [] = some ([] ++ [(0, 2), (1, 102)]) ∧
      execute 2 [oddFails, consumerStage] 1 [] = some ([] ++ [(0, 1)]) :=
  ⟨sample_atMostOnce,
    (execute_runs_stages_in_order 2 OverflowBlock [oddFails, consumerStage] sample_atMostOnce
      2 2 (by decide) []).2.2.1,
    (execute_runs_stages_in_order 2 OverflowBlock [oddFails, consumerStage] sample_atMostOnce
      1 2 (by decide) []).2.2.1⟩

/-! ## Stop -/

theorem workerLoop_drain_closed {α : Type} (fuel : Nat) (pick : Nat → Bool) :
    ∀ (buf : List α) (p : Pipeline α), p.ch.buf = buf → p.worker = .running →
      p.ctxDone = false → p.ch.closed = true → p.stages.length ≤ fuel →
      workerLoop fuel pick (buf.length + 1) p =
        some { p with
          ch := { p.ch with buf := [] }
          worker := .exited
          taken := p.taken ++ buf
          log := p.log ++ buf.flatMap (chainTrace p.stages) } := by
  intro buf
  induction buf with
  | nil =>
    intro p hb hw hc hcl _
    obtain ⟨capacity, strat, stages, ⟨cap, buf, closed⟩, closing, worker, ctx, taken, log⟩ := p
    simp only at hb hw hc hcl
    subst hb hw hc hcl
    simp [workerLoop, workerStep]
  | cons it rest ih =>
    intro p hb hw hc hcl hf
    obtain ⟨capacity, strat, stages, ⟨cap, buf, closed⟩, closing, worker, ctx, taken, log⟩ := p
    simp only at hb hw hc hcl hf
    subst hb hw hc hcl
    rw [List.length_cons, workerLoop]
    simp only [workerStep, Bool.false_and, Bool.false_eq_true, if_false,
      execute_eq stages fuel hf it log]
    rw [ih _ rfl rfl rfl rfl hf]
    simp [List.append_assoc]

/-- C9, as amended: when the worker has been started and is still running and
its context does not fire, a first `Stop` returns with every item that was
buffered taken by the worker, in order, and run through the stage chain, the
buffer empty and the worker gone; and on any pipeline, calling `Stop` again
after a `Stop` has returned changes nothing. -/
theorem Stop_drains_running_worker {α : Type} (p : Pipeline α) (fuel : Nat)
    (pick : Nat → Bool) :
    (p.closing = false → p.worker = .running → p.ctxDone = false → p.stages.length ≤ fuel →
        Stop fuel pick p =
          some { p with
            closing := true
            ch := { p.ch with buf := [], closed := true }
            worker := .exited
            taken := p.taken ++ p.ch.buf
            log := p.log ++ p.ch.buf.flatMap (chainTrace p.stages) }) ∧
      (∀ q, Stop fuel pick p = some q →
        ∀ (fuel2 : Nat) (pick2 : Nat → Bool), Stop fuel2 pick2 q = some q) := by
  refine ⟨fun hopen hw hc hf => ?_, fun q hq fuel2 pick2 => ?_⟩
  · unfold Stop
    simp only [hopen, Bool.false_eq_true, if_false]
    have := workerLoop_drain_closed fuel pick p.ch.buf
      { p with closing := true, ch := { p.ch with closed := true } } rfl hw hc rfl hf
    simpa using this
  · have := Stop_closing hq
    simp [Stop, this]

/-- C9, as amended, at `sampleRunning`: both buffered items are taken and run. -/
theorem Stop_drains_running_worker_witness :
    (sampleRunning.closing = false ∧ sampleRunning.worker = .running ∧
        sampleRunning.ctxDone = false ∧ sampleRunning.stages.length ≤ 2) ∧
      Stop 2 (fun _ => true) sampleRunning =
        some { sampleRunning with
          closing := true
          ch := { sampleRunning.ch with buf := [], closed := true }
          worker := .exited
          taken := sampleRunning.taken ++ sampleRunning.ch.buf
          log := sampleRunning.log ++
            sampleRunning.ch.buf.flatMap (chainTrace sampleRunning.stages) } ∧
      (Stop 2 (fun _ => true) sampleRunning).map (fun q => (q.ch.buf, q.taken, q.log)) =
        some ([], [1, 2], [(0, 1), (0, 2), (1, 102)]) :=
  ⟨⟨rfl, rfl, rfl, by decide⟩,
    (Stop_drains_running_worker sampleRunning 2 (fun _ => true)).1 rfl rfl rfl (by decide),
    rfl⟩

/-- C9 as stated fails: `Stop` on a pipeline whose worker was never started
returns with the buffered item 7 still in the buffer, not taken and not run;
and `Stop` on a started pipeline whose context has fired can return with both
buffered items left. -/
theorem Stop_can_leave_items :
    (run 1 [Op.use passStage, Op.publish false false 7, Op.stop (fun _ => false)]
          (NewPipeline 2 OverflowBlock)).map
        (fun q => (q.ch.buf, q.taken, q.log, q.closing)) = some ([7], [], [], true) ∧
      (run 1 [Op.use passStage, Op.start false, Op.publish false false 7,
          Op.publish false false 8, Op.cancel, Op.stop (fun _ => true)]
          (NewPipeline 2 OverflowBlock)).map
        (fun q => (q.ch.buf, q.taken, q.log, q.closing)) = some ([7, 8], [], [], true) :=
  ⟨rfl, rfl⟩

/-! ## The file queue: reads and writes share one offset -/

theorem NewFileQueue_atEnd (content : List Nat) : (NewFileQueue content).AtEnd :=
  ⟨rfl, rfl⟩

theorem fileWrite_atEnd (q : FileQueue) (data : List Nat) (h : q.AtEnd) :
    (fileWrite q data).content = q.content ++ data ∧ (fileWrite q data).AtEnd := by
  obtain ⟨h1, h2⟩ := h
  have hc : (fileWrite q data).content = q.content ++ data := by
    simp [fileWrite, h1]
  refine ⟨hc, ?_, h2⟩
  rw [hc]
  simp [fileWrite, h1]

theorem Enqueue_atEnd {ι : Type} (marshal : ι → Except String (List Nat)) (item : ι)
    (q : FileQueue) (h : q.AtEnd) :
    (Enqueue marshal item q).2.AtEnd ∧
      (∀ b, marshal item = .ok b →
        (Enqueue marshal item q).1 = none ∧
          (Enqueue marshal item q).2.content = q.content ++ b ++ [10]) := by
  unfold Enqueue
  cases hm : marshal item with
  | error e => exact ⟨h, fun b hb => by cases hb⟩
  | ok b =>
    obtain ⟨hc, ha⟩ := fileWrite_atEnd q (b ++ [10]) h
    refine ⟨ha, fun b2 hb => ?_⟩
    cases hb
    exact ⟨rfl, by rw [hc, List.append_assoc]⟩

theorem readBytes_atEnd (q : FileQueue) (h : q.AtEnd) (fuel : Nat) :
    readBytes defaultBufSize 10 (fuel + 1) q [] = some (([], true), q) := by
  obtain ⟨h1, h2⟩ := h
  obtain ⟨content, offset, rbuf⟩ := q
  simp only at h1 h2
  subst h1 h2
  simp [readBytes, defaultBufSize]

theorem Dequeue_atEnd {υ : Type} (unmarshal : List Nat → Except String υ) (q : FileQueue)
    (h : q.AtEnd) (fuel : Nat) :
    Dequeue unmarshal (fuel + 1) q = some (.error "empty", q) := by
  simp [Dequeue, readBytes_atEnd q h fuel]

/-- Whatever the codec, the starting content of the file and the calls made,
every `Dequeue` of a session returns the error "empty". -/
theorem runQueue_dequeues_empty {ι υ : Type} (marshal : ι → Except String (List Nat))
    (unmarshal : List Nat → Except String υ) (fuel : Nat) :
    ∀ (ops : List (QueueOp ι)) (q : FileQueue), q.AtEnd →
      ∃ rs q2, runQueue marshal unmarshal (fuel + 1) ops q = some (rs, q2) ∧
        (∀ r ∈ rs, r = .error "empty") ∧ q2.AtEnd := by
  intro ops
  induction ops with
  | nil => intro q h; exact ⟨[], q, rfl, by simp, h⟩
  | cons op ops ih =>
    intro q h
    cases op with
    | enqueue item =>
      obtain ⟨rs, q2, e, hr, ha⟩ := ih _ (Enqueue_atEnd marshal item q h).1
      exact ⟨rs, q2, by rw [runQueue, e], hr, ha⟩
    | dequeue =>
      obtain ⟨rs, q2, e, hr, ha⟩ := ih q h
      refine ⟨.error "empty" :: rs, q2, ?_, ?_, ha⟩
      · rw [runQueue, Dequeue_atEnd unmarshal q h fuel]
        simp [e]
      · intro r hmem
        simp only [List.mem_cons] at hmem
        rcases hmem with rfl | hmem
        · rfl
        · exact hr r hmem

/-- C10 on an empty file and the item "a": `Enqueue` returns `nil` and the
file holds the one line `"a"` and a newline, which decodes to the item; yet
the `Dequeue` that follows returns the error "empty" and not the item, since
the read starts at the shared offset, which stands at the end of the file. -/
theorem Dequeue_after_Enqueue_is_empty :
    Enqueue marshalPlain [97] (NewFileQueue []) =
        (none, { content := [34, 97, 34, 10], offset := 4, rbuf := [] }) ∧
      unmarshalPlain [34, 97, 34, 10] = .ok [97] ∧
      (∀ fuel, Dequeue unmarshalPlain (fuel + 1) (Enqueue marshalPlain [97] (NewFileQueue [])).2 =
        some (.error "empty", { content := [34, 97, 34, 10], offset := 4, rbuf := [] })) := by
  refine ⟨rfl, rfl, fun fuel => ?_⟩
  exact Dequeue_atEnd unmarshalPlain _ (Enqueue_atEnd marshalPlain [97] _
    (NewFileQueue_atEnd [])).1 fuel

end Plover
